import Mathlib

/-!
A verification development for the LHA/LZH header parser of the `delharc`
crate (`src/header/parser.rs`).  The parser is shallowly embedded: the byte
reader becomes a list of natural numbers (each a byte value), the running
parser state (`Parser`) carries the remaining input, the bytes fed to the
CRC-16 digest, the 8-bit wrapping sum and the bytes-consumed counter, and
`LhaHeader.read` becomes `readAux`, a total function from the input byte
list to `Except String (Option (LhaHeader × Parser × Ghost))` where `Ghost`
records internal quantities (long header length, the list of extra-header
records, the position of the Common header, ...) that the theorems below
refer to.
-/

namespace Delharc

/-- Little-endian decoding of a byte list (`u16::from_le_bytes`,
`u32::from_le_bytes`, `u64::from_le_bytes` in the source, depending on the
length of the list). -/
def leNum (l : List Nat) : Nat := l.foldr (fun b acc => b + 256 * acc) 0

/-- The `u32` modulus, used where the source casts `usize` to `u32`. -/
def M32 : Nat := 4294967296

/-- One bit-shift round of the CRC-16 computation, iterated `k` times. -/
def crcShift : Nat → Nat → Nat
  | c, 0 => c
  | c, k + 1 => crcShift (if c % 2 = 1 then (c / 2) ^^^ 0xA001 else c / 2) k

/-- Digest a single byte into a CRC-16 register. -/
def crc16Step (c b : Nat) : Nat := crcShift (c ^^^ (b % 256)) 8

/-- Modelled from the spec: the CRC-16 primitive (`crate::crc::Crc16`) is not
under `src/`; the spec treats it as a primitive with a "digest these bytes"
and a "finalize to 16-bit value" operation whose polynomial and initial state
are defined by the LHA specification.  We model it as the standard LHA
CRC-16 (reflected polynomial `0xA001`, initial value `0`). -/
def crc16 (l : List Nat) : Nat := l.foldl crc16Step 0

/-- Overwrite the two bytes at positions `i` and `i+1` with zero (the
in-place erasure of the Common extra header's CRC-16 field). -/
def zero2At (l : List Nat) (i : Nat) : List Nat := (l.set i 0).set (i + 1) 0

/-- The image of the consumed bytes as seen by the CRC-16 digest: identical
to the consumed bytes except that, when a Common extra header was seen at
input position `cp`, the two bytes of its CRC-16 field (positions `cp+1`
and `cp+2`) are replaced by zeros. -/
def maskCrc : Option Nat → List Nat → List Nat
  | none, l => l
  | some cp, l => zero2At l (cp + 1)

/-- Number of extra-header records whose identifier byte is `0x00`
(the Common header). -/
def countCommon (rs : List (List Nat)) : Nat := rs.countP (fun r => r.headD 1 = 0)

/-- The parser working state: remaining input, bytes digested into the
CRC-16 so far (`crc` in the source, kept as the list of digested bytes so
that the digest image can be inspected), the 8-bit wrapping sum (`csum`),
and the bytes-consumed counter (`len`). -/
structure Parser where
  rd : List Nat
  crcData : List Nat
  csum : Nat
  len : Nat
  deriving Repr, DecidableEq

/-- `Parser::update_checksums_no_wrapping_sum`: bump the byte counter and
feed the bytes to the CRC-16 digest. -/
def update_checksums_no_wrapping_sum (p : Parser) (buf : List Nat) : Parser :=
  { p with len := p.len + buf.length, crcData := p.crcData ++ buf }

/-- `wrapping_csum`: the 8-bit wrapping sum of `data`, added to `init`. -/
def wrapping_csum (init : Nat) (data : List Nat) : Nat := (data.sum + init) % 256

/-- `Parser::update_checksums`: additionally folds the bytes into the
wrapping sum. -/
def update_checksums (p : Parser) (buf : List Nat) : Parser :=
  let p1 := update_checksums_no_wrapping_sum p buf
  { p1 with csum := wrapping_csum p.csum buf }

/-- `Parser::read_u8_or_none`: one byte or end-of-stream; does not update
the wrapping sum. -/
def read_u8_or_none (p : Parser) : Option Nat × Parser :=
  match p.rd with
  | [] => (none, p)
  | b :: rest => (some b, update_checksums_no_wrapping_sum { p with rd := rest } [b])

/-- `Parser::read_exact` on a buffer of length `n` (returns the bytes). -/
def read_exact (p : Parser) (n : Nat) : Except String (List Nat × Parser) :=
  if n ≤ p.rd.length then
    .ok (p.rd.take n, update_checksums { p with rd := p.rd.drop n } (p.rd.take n))
  else .error "truncated"

/-- `Parser::read_u8`. -/
def read_u8 (p : Parser) : Except String (Nat × Parser) :=
  match read_exact p 1 with
  | .ok (buf, p) => .ok (leNum buf, p)
  | .error e => .error e

/-- `Parser::read_u16`. -/
def read_u16 (p : Parser) : Except String (Nat × Parser) :=
  match read_exact p 2 with
  | .ok (buf, p) => .ok (leNum buf, p)
  | .error e => .error e

/-- `Parser::read_u32`. -/
def read_u32 (p : Parser) : Except String (Nat × Parser) :=
  match read_exact p 4 with
  | .ok (buf, p) => .ok (leNum buf, p)
  | .error e => .error e

/-- `Parser::read_limit`: a bounded read that updates both checksums; its
short-read error message differs from `read_exact`'s. -/
def read_limit (p : Parser) (n : Nat) : Except String (List Nat × Parser) :=
  if n ≤ p.rd.length then
    .ok (p.rd.take n, update_checksums { p with rd := p.rd.drop n } (p.rd.take n))
  else .error "file is too short"

/-- `Parser::read_limit_no_checksums`: pulls bytes from the reader without
updating any checksum or the byte counter (they are updated later, after
possible in-place edits of the record). -/
def read_limit_no_checksums (p : Parser) (n : Nat) : Except String (List Nat × Parser) :=
  if n ≤ p.rd.length then
    .ok (p.rd.take n, { p with rd := p.rd.drop n })
  else .error "file is too short"

/-- `LhaRawBaseHeader`: the 19-byte fixed base header, kept as raw byte
fields exactly as in the packed struct. -/
structure LhaRawBaseHeader where
  compression : List Nat
  compressed_size : List Nat
  original_size : List Nat
  last_modified : List Nat
  msdos_attrs : Nat
  lha_level : Nat
  deriving Repr, DecidableEq

/-- Decode the 19 raw bytes into the packed `LhaRawBaseHeader` fields. -/
def parseRawBase (b : List Nat) : LhaRawBaseHeader :=
  { compression := b.take 5
    compressed_size := (b.drop 5).take 4
    original_size := (b.drop 9).take 4
    last_modified := (b.drop 13).take 4
    msdos_attrs := b.getD 17 0
    lha_level := b.getD 18 0 }

/-- The state accumulated by `LhaHeader::read` up to (and including) the
checksum / header-size validation that precedes the extra-header walk. -/
structure PreState where
  header_len : Nat
  csum_byte : Nat
  base : LhaRawBaseHeader
  filename : List Nat
  file_crc : Nat
  os_type : Nat
  extended_area : List Nat
  long_header_len : Nat
  first_header_len : Nat
  p : Parser
  deriving Repr, DecidableEq

/-- Read the filename length and filename (levels 0 and 1 only), with the
header-size guard. -/
def readFilename (level h : Nat) (p : Parser) : Except String (List Nat × Parser) :=
  if level < 2 then
    match read_u8 p with
    | .error e => .error e
    | .ok (fnLen, p) =>
      if h < p.len + fnLen then .error "wrong header size"
      else read_limit p fnLen
  else .ok ([], p)

/-- The extended-area length and OS-type step of the level 0/1 extended
area handling: for level 0 with a non-empty extended area, its first byte
is read as the OS-type and the length is decremented. -/
def readExtOs (level h ost min_len : Nat) (p : Parser) : Except String (Nat × Nat × Parser) :=
  if h - min_len ≠ 0 ∧ level = 0 then
    match read_u8 p with
    | .error e => .error e
    | .ok (o, p) => .ok (h - min_len - 1, o, p)
  else .ok (h - min_len, ost, p)

/-- Read the level 0/1 extended area (for level 0 its first byte is the
OS-type); returns the possibly updated OS-type byte.  `min_len` is the
minimum header length computed by the caller (`parser.len`, minus 2 at
level 0 because level 0 has no extra headers). -/
def readExtended (level h ost min_len : Nat) (p : Parser) :
    Except String (Nat × List Nat × Parser) :=
  if level < 2 then
    if h < min_len then .error "wrong header size"
    else
      match readExtOs level h ost min_len p with
      | .error e => .error e
      | .ok (elen, o, p) =>
        if elen ≠ 0 then
          match read_limit p elen with
          | .error e => .error e
          | .ok (ea, p) => .ok (o, ea, p)
        else .ok (o, [], p)
  else .ok (ost, [], p)

/-- Establish the first extra-header length and (levels 2 and 3) the long
header length; for level 3 the two prolog bytes must be `4` and `0`. -/
def readLens (level h c : Nat) (p : Parser) : Except String (Nat × Nat × Parser) :=
  if level = 1 then
    match read_u16 p with
    | .error e => .error e
    | .ok (fst, p) => .ok (0, fst, p)
  else if level = 2 then
    match read_u16 p with
    | .error e => .error e
    | .ok (fst, p) => .ok (leNum [h, c], fst, p)
  else if level = 3 then
    match read_u32 p with
    | .error e => .error e
    | .ok (lng, p) =>
      match read_u32 p with
      | .error e => .error e
      | .ok (fst, p) =>
        if h ≠ 4 ∨ c ≠ 0 then .error "invalid header"
        else .ok (lng, fst, p)
  else .ok (0, 0, p)

/-- Validate the level 0/1 wrapping-sum checksum, or (levels 2 and 3) that
the long header length covers the bytes consumed plus the first extra
header (the source casts `parser.len` to `u32` here). -/
def validatePre (level c lng fst : Nat) (p : Parser) : Except String Unit :=
  if level < 2 then
    if c ≠ p.csum then .error "invalid header level checksum" else .ok ()
  else if lng < (p.len % M32 + fst) % M32 then .error "wrong header size"
  else .ok ()

/-- `LhaHeader::read` up to (and including) the pre-walk validation:
prolog, 19-byte base, filename, file CRC, OS-type, extended area, length
fields, checksum / size validation.  Returns `none` for the end-of-archive
sentinel. -/
def readPre (l : List Nat) : Except String (Option PreState) :=
  match read_u8_or_none { rd := l, crcData := [], csum := 0, len := 0 } with
  | (none, _) => .ok none
  | (some h, p1) =>
    if h = 0 then .ok none
    else
      match read_u8 p1 with
      | .error e => .error e
      | .ok (c, p2) =>
        match read_exact { p2 with csum := 0 } 19 with
        | .error e => .error e
        | .ok (bb, p3) =>
          if 3 < (parseRawBase bb).lha_level then .error "unknown header level"
          else
            match readFilename (parseRawBase bb).lha_level h p3 with
            | .error e => .error e
            | .ok (fn, p4) =>
              match read_u16 p4 with
              | .error e => .error e
              | .ok (fcrc, p5) =>
                match (if 0 < (parseRawBase bb).lha_level then read_u8 p5 else .ok (0, p5)) with
                | .error e => .error e
                | .ok (ost0, p6) =>
                  match readExtended (parseRawBase bb).lha_level h ost0
                      (if (parseRawBase bb).lha_level = 0 then p6.len - 2 else p6.len) p6 with
                  | .error e => .error e
                  | .ok (ost, ea, p7) =>
                    match readLens (parseRawBase bb).lha_level h c p7 with
                    | .error e => .error e
                    | .ok (lng, fst, p8) =>
                      match validatePre (parseRawBase bb).lha_level c lng fst p8 with
                      | .error e => .error e
                      | .ok _ =>
                        .ok (some
                          { header_len := h, csum_byte := c, base := parseRawBase bb,
                            filename := fn, file_crc := fcrc, os_type := ost,
                            extended_area := ea, long_header_len := lng,
                            first_header_len := fst, p := p8 })

/-- Mutable state threaded through the extra-header walk. -/
structure ExtraState where
  extra_headers : List Nat
  records : List (List Nat)
  header_crc : Option Nat
  commonPos : Option Nat
  msdos_attrs : Nat
  compressed_size : Nat
  original_size : Nat
  deriving Repr, DecidableEq

/-- `min_header_len` in the walk: 5 for level 3 (4-byte next-length field),
else 3. -/
def minHeaderLen (level : Nat) : Nat := if level = 3 then 5 else 3

/-- The next-record length read from the trailing 4 (level 3) or 2 bytes of
the just-retained (possibly edited) record. -/
def nextLenOf (level : Nat) (header : List Nat) : Nat :=
  if level = 3 then leNum (header.drop (header.length - 4))
  else leNum (header.drop (header.length - 2))

/-- Inspect a just-read extra-header record (identified by its first byte):
Common (0x00) extracts and zeroes the header CRC-16 field, MS-DOS /
extended attributes (0x40 / 0x7F) with a payload of at least 2 bytes
replace the attribute bits, MS-DOS size (0x42) at level ≥ 2 with a payload
of at least 16 bytes replaces both sizes.  Returns the (possibly edited)
record together with the updated state; `pos` is the input position at
which the record starts (ghost data). -/
def processRecord (level : Nat) (st : ExtraState) (pos : Nat) (raw : List Nat) :
    Except String (List Nat × ExtraState) :=
  match raw with
  | [] => .ok ([], st)
  | b :: data =>
    if b = 0 then
      if st.header_crc.isSome then .error "double common CRC-16 header"
      else if 2 ≤ data.length then
        .ok (0 :: 0 :: 0 :: data.drop 2,
          { st with header_crc := some (leNum (data.take 2)), commonPos := some pos })
      else .ok (b :: data, st)
    else if (b = 64 ∨ b = 127) ∧ 2 ≤ data.length then
      .ok (b :: data, { st with msdos_attrs := leNum (data.take 2) })
    else if b = 66 ∧ 2 ≤ level ∧ 16 ≤ data.length then
      .ok (b :: data, { st with compressed_size := leNum (data.take 8),
                                original_size := leNum ((data.drop 8).take 8) })
    else .ok (b :: data, st)

/-- The extra-header walk (`while extra_header_len != 0` in the source).
`fuel` only bounds the recursion; it is always called with more fuel than
the remaining input length, and every iteration consumes at least 3 bytes,
so the fuel can never run out on a path that returns `ok`. -/
def extraLoop (level lng : Nat) : Nat → Nat → Parser → ExtraState →
    Except String (Parser × ExtraState)
  | 0, _, _, _ => .error "loop limit exceeded"
  | fuel + 1, cur, p, st =>
    if cur = 0 then .ok (p, st)
    else if cur < minHeaderLen level then .error "wrong extra header size"
    else if lng ≠ 0 ∧ lng < p.len + cur - 2 then .error "wrong header size"
    else if lng = 0 ∧ st.compressed_size < st.extra_headers.length + cur then
      .error "wrong header size"
    else
      match read_limit_no_checksums p cur with
      | .error e => .error e
      | .ok (raw, p1) =>
        match processRecord level st p1.len raw with
        | .error e => .error e
        | .ok (edited, st1) =>
          extraLoop level lng fuel (nextLenOf level edited)
            (update_checksums_no_wrapping_sum p1 edited)
            { st1 with extra_headers := st1.extra_headers ++ edited,
                       records := st1.records ++ [edited] }

/-- The post-walk validation of the long header length (levels 2 and 3 in
the source's intent; the code as written only ever rejects at level 2).
The padding case reads and digests one extra byte.  `usize` values are cast
to `u32` in the comparisons. -/
def validateLong (level lng : Nat) (p : Parser) : Except String Parser :=
  if lng ≠ 0 then
    if lng ≠ p.len % M32 then
      if level = 2 ∧ lng = (p.len % M32 + 1) % M32 then
        match read_u8 p with
        | .error e => .error e
        | .ok (_, p) => .ok p
      else if level = 2 ∧ (lng + 2) % M32 ≠ p.len % M32 then
        .error "wrong length of headers"
      else .ok p
    else .ok p
  else .ok p

/-- The header CRC-16 validation, performed when a Common extra header was
seen. -/
def validateCrc (hcrc : Option Nat) (p : Parser) : Except String Unit :=
  match hcrc with
  | some crc => if crc ≠ crc16 p.crcData then .error "wrong header CRC-16 checksum" else .ok ()
  | none => .ok ()

/-- The level-1 skip-size adjustment: the compressed size is decremented by
the number of retained extra-header bytes. -/
def adjustCompressed (level extraLen cs : Nat) : Except String Nat :=
  if level = 1 then
    if cs < extraLen then .error "wrong length of skip size"
    else .ok (cs - extraLen)
  else .ok cs

/-- The parsed header record (the `LhaHeader` struct fields filled in by
`LhaHeader::read`). -/
structure LhaHeader where
  level : Nat
  compression : List Nat
  compressed_size : Nat
  original_size : Nat
  filename : List Nat
  os_type : Nat
  msdos_attrs : Nat
  last_modified : Nat
  file_crc : Nat
  extended_area : List Nat
  first_header_len : Nat
  extra_headers : List Nat
  deriving Repr, DecidableEq

/-- Ghost data about a successful parse, used only by the statements of the
theorems below. -/
structure Ghost where
  header_len : Nat
  csum_byte : Nat
  long_header_len : Nat
  first_header_len : Nat
  records : List (List Nat)
  header_crc : Option Nat
  commonPos : Option Nat
  deriving Repr, DecidableEq

/-- `LhaHeader::read`, with the final parser state and ghost data exposed.
Returns `ok none` for the end-of-archive sentinel. -/
def readAux (l : List Nat) : Except String (Option (LhaHeader × Parser × Ghost)) :=
  match readPre l with
  | .error e => .error e
  | .ok none => .ok none
  | .ok (some pre) =>
    match extraLoop pre.base.lha_level pre.long_header_len (pre.p.rd.length + 1)
        pre.first_header_len pre.p
        { extra_headers := [], records := [], header_crc := none, commonPos := none,
          msdos_attrs := pre.base.msdos_attrs,
          compressed_size := leNum pre.base.compressed_size,
          original_size := leNum pre.base.original_size } with
    | .error e => .error e
    | .ok (p1, st) =>
      match validateLong pre.base.lha_level pre.long_header_len p1 with
      | .error e => .error e
      | .ok p2 =>
        match validateCrc st.header_crc p2 with
        | .error e => .error e
        | .ok _ =>
          match adjustCompressed pre.base.lha_level st.extra_headers.length
              st.compressed_size with
          | .error e => .error e
          | .ok cs =>
            .ok (some (
              { level := pre.base.lha_level
                compression := pre.base.compression
                compressed_size := cs
                original_size := st.original_size
                filename := pre.filename
                os_type := pre.os_type
                msdos_attrs := st.msdos_attrs
                last_modified := leNum pre.base.last_modified
                file_crc := pre.file_crc
                extended_area := pre.extended_area
                first_header_len := pre.first_header_len
                extra_headers := st.extra_headers },
              p2,
              { header_len := pre.header_len, csum_byte := pre.csum_byte,
                long_header_len := pre.long_header_len,
                first_header_len := pre.first_header_len,
                records := st.records, header_crc := st.header_crc,
                commonPos := st.commonPos }))

/-! ### Projections of `readAux` used by the theorem statements -/

/-- The header level of a successfully parsed header. -/
def readLevel (l : List Nat) : Option Nat :=
  match readAux l with
  | .ok (some (h, _, _)) => some h.level
  | _ => none

/-- Level, total bytes consumed and announced long header length of a
successfully parsed header. -/
def readC1Info (l : List Nat) : Option (Nat × Nat × Nat) :=
  match readAux l with
  | .ok (some (h, p, g)) => some (h.level, p.len, g.long_header_len)
  | _ => none

/-- Level, total bytes consumed, announced long header length and total
retained extra-header byte count of a successfully parsed header. -/
def readC2Info (l : List Nat) : Option (Nat × Nat × Nat × Nat) :=
  match readAux l with
  | .ok (some (h, p, g)) => some (h.level, p.len, g.long_header_len, h.extra_headers.length)
  | _ => none

/-- Position of the Common extra header (if any) and total bytes consumed
of a successfully parsed header. -/
def readC3Info (l : List Nat) : Option (Option Nat × Nat) :=
  match readAux l with
  | .ok (some (_, p, g)) => some (g.commonPos, p.len)
  | _ => none

/-- The number of Common records among the accepted extra-header records of
a successfully parsed header. -/
def readC4Count (l : List Nat) : Option Nat :=
  match readAux l with
  | .ok (some (_, _, g)) => some (countCommon g.records)
  | _ => none

/-- Level, reported compressed size and retained extra-header byte count of
a successfully parsed header. -/
def readC6Info (l : List Nat) : Option (Nat × Nat × Nat) :=
  match readAux l with
  | .ok (some (h, _, _)) => some (h.level, h.compressed_size, h.extra_headers.length)
  | _ => none

/-- Level, reported sizes and the accepted extra-header records of a
successfully parsed header. -/
def readC7Info (l : List Nat) : Option (Nat × Nat × Nat × List (List Nat)) :=
  match readAux l with
  | .ok (some (h, _, g)) => some (h.level, h.compressed_size, h.original_size, g.records)
  | _ => none

/-- Whether an extra-header record is an MS-DOS Size record that the parser
honours at the given level: identifier `0x42` and at least 16 payload
bytes. -/
def isSizeRec (level : Nat) (r : List Nat) : Bool :=
  match r with
  | [] => false
  | b :: data => decide (b = 66) && decide (2 ≤ level) && decide (16 ≤ data.length)

/-! ### The name / path sanitizer (`parse_str_nilterm`, `parse_pathname`)

Strings are modelled as lists of Unicode code points (`List Nat`); the
platform-dependent `std::path::is_separator` predicate is a parameter
`sep : Nat → Bool` (on Unix it holds exactly for `/`, on Windows for `/`
and `\`). -/

/-- One lowercase hexadecimal digit character code. -/
def hexDigitCode (n : Nat) : Nat := if n < 10 then 48 + n else 87 + n

/-- The `%xx` escape (`write!(out, "%{:02x}", byte)`) of a byte. -/
def escapeByte (b : Nat) : List Nat := [37, hexDigitCode (b % 256 / 16), hexDigitCode (b % 16)]

/-- The predicate locating the first byte that needs rewriting: a control
code, a non-ASCII / DEL byte, or (unless separators are ignored) a platform
path separator. -/
def badByte (sep : Nat → Bool) (ignore_sep : Bool) (c : Nat) : Bool :=
  decide (c < 32) || decide (127 ≤ c) || (!ignore_sep && sep c)

/-- The rewriting loop over the tail of the string (after the first byte
that needs rewriting): stop at NUL when nil-terminating, escape control and
non-ASCII bytes, replace separators by `_`, pass other bytes through. -/
def sanitizeTail (sep : Nat → Bool) (nilterm ignore_sep : Bool) : List Nat → List Nat
  | [] => []
  | b :: rest =>
    if nilterm ∧ b = 0 then []
    else if b < 32 ∨ 127 ≤ b then escapeByte b ++ sanitizeTail sep nilterm ignore_sep rest
    else if !ignore_sep && sep b then 95 :: sanitizeTail sep nilterm ignore_sep rest
    else b :: sanitizeTail sep nilterm ignore_sep rest

/-- `parse_str_nilterm`: bytes before the first byte that needs rewriting
are passed through verbatim; the rest goes through the rewriting loop. -/
def parse_str_nilterm (sep : Nat → Bool) (data : List Nat) (nilterm ignore_sep : Bool) :
    List Nat :=
  match data.findIdx? (badByte sep ignore_sep) with
  | some index => data.take index ++ sanitizeTail sep nilterm ignore_sep (data.drop index)
  | none => data

/-- `data.split(|&c| c == 0xFF || c == b'/' || c == b'\\')`: split the raw
pathname on all three possible on-wire path separators, keeping empty
pieces, separators removed. -/
def splitBySep : List Nat → List (List Nat)
  | [] => [[]]
  | c :: rest =>
    if c = 255 ∨ c = 47 ∨ c = 92 then [] :: splitBySep rest
    else
      match splitBySep rest with
      | part :: parts => (c :: part) :: parts
      | [] => [[c]]

/-- `parse_pathname`: the path accumulator is modelled as the list of
pushed components.  Each surviving component is sanitized with
`nil_terminate = false`, `ignore_separator = false`; since such a component
never contains a platform separator character and is non-empty,
`PathBuf::push` appends it as one relative component, which the model
represents by appending to the component list. -/
def parse_pathname (sep : Nat → Bool) (data : List Nat) (path : List (List Nat)) :
    List (List Nat) :=
  (splitBySep data).foldl
    (fun path part =>
      if part = [46] ∨ part = [46, 46] ∨ part = [] then path
      else path ++ [parse_str_nilterm sep part false false]) path

/-- The per-byte rewriting chunk (proof helper): `parse_str_nilterm` with
`nilterm = false` is the concatenation of these chunks. -/
def chunkByte (sep : Nat → Bool) (ignore_sep : Bool) (b : Nat) : List Nat :=
  if b < 32 ∨ 127 ≤ b then escapeByte b
  else if !ignore_sep && sep b then [95]
  else [b]

/-- UTF-8 byte length of a string given as a list of Unicode code points. -/
def utf8Len (l : List Nat) : Nat :=
  (l.map (fun c => if c < 128 then 1 else if c < 2048 then 2 else if c < 65536 then 3 else 4)).sum

/-- The Unix `std::path::is_separator`: only `/`. -/
def sepUnix : Nat → Bool := fun c => decide (c = 47)

/-! ### Concrete inputs used by witnesses and counterexamples -/

/-- A level-3 header whose announced long header length (33) differs from
its actual byte count (32). -/
def inputLevel3Mismatch : List Nat :=
  [4, 0] ++ List.replicate 18 0 ++ [3] ++ [0, 0, 0] ++ [33, 0, 0, 0] ++ [0, 0, 0, 0]

/-- A level-2 header produced in the "Osk" convention: announced long
header length 30, actual byte count 32, with two 3-byte extra records. -/
def inputOsk : List Nat :=
  [30, 0] ++ List.replicate 18 0 ++ [2] ++ [0, 0, 0] ++ [3, 0] ++ [1, 3, 0] ++ [1, 0, 0]

/-- A minimal valid level-0 header (24 bytes). -/
def inputLevel0 : List Nat := [22, 0] ++ List.replicate 19 0 ++ [0] ++ [0, 0]

/-- A valid level-1 header with one 3-byte extra record and compressed size
3 (so the skip-size adjustment yields 0). -/
def inputLevel1Extra : List Nat :=
  [25, 7, 0, 0, 0, 0, 0, 3, 0, 0, 0] ++ List.replicate 9 0 ++ [1] ++ [0, 0, 0, 0] ++
    [3, 0] ++ [1, 0, 0]

/-- A valid level-1 header with a 3-byte Common extra header carrying the
correct header CRC-16 (`0x7512`). -/
def inputLevel1Common : List Nat :=
  [25, 7, 0, 0, 0, 0, 0, 3, 0, 0, 0] ++ List.replicate 9 0 ++ [1] ++ [0, 0, 0, 0] ++
    [3, 0] ++ [0, 18, 117]

/-- A valid level-2 header with one MS-DOS Size extra header setting the
compressed size to 7 and the original size to 9. -/
def inputMsdosSize : List Nat :=
  [45, 0, 0, 0, 0, 0, 0, 1, 0, 0, 0, 2, 0, 0, 0] ++ List.replicate 5 0 ++ [2] ++
    [0, 0, 0] ++ [19, 0] ++
    ([66] ++ [7, 0, 0, 0, 0, 0, 0, 0] ++ [9, 0, 0, 0, 0, 0, 0, 0] ++ [0, 0])

/-! ### Tracking lemmas for the parser primitives -/

/-- The relation between the original input `l` and the parser state
throughout the straight-line phases before the extra-header walk (after the
wrapping-sum reset): the remaining input is a suffix, the digested bytes
are exactly the consumed prefix, and the wrapping sum covers the consumed
bytes from position 2 on. -/
def PS (l : List Nat) (p : Parser) : Prop :=
  p.rd = l.drop p.len ∧ p.len ≤ l.length ∧ p.crcData = l.take p.len ∧
  2 ≤ p.len ∧ p.csum = ((l.take p.len).drop 2).sum % 256

/-- The per-record size update of the walk, as a fold step (identifier
`0x42` with enough payload, at level ≥ 2, replaces both sizes). -/
def sizeStep (level : Nat) (ac : Nat × Nat) (r : List Nat) : Nat × Nat :=
  match r with
  | [] => ac
  | b :: data =>
    if b = 66 ∧ 2 ≤ level ∧ 16 ≤ data.length then
      (leNum (data.take 8), leNum ((data.drop 8).take 8))
    else ac

/-- The invariant maintained by the extra-header walk: input tracking, the
masked CRC digest image, the Common-header bookkeeping, the buffer being
the concatenation of the accepted records, and the sizes being the fold of
the size-records over the base sizes. -/
def LoopInv (l : List Nat) (level cs0 os0 : Nat) (p : Parser) (st : ExtraState) : Prop :=
  p.rd = l.drop p.len ∧ p.len ≤ l.length ∧
  p.crcData = maskCrc st.commonPos (l.take p.len) ∧
  (st.header_crc.isSome ↔ st.commonPos.isSome) ∧
  (∀ cp, st.commonPos = some cp → cp + 3 ≤ p.len ∧
      st.header_crc = some (leNum ((l.drop (cp + 1)).take 2))) ∧
  countCommon st.records ≤ (if st.header_crc.isSome then 1 else 0) ∧
  st.extra_headers = st.records.flatten ∧
  (st.compressed_size, st.original_size) = st.records.foldl (sizeStep level) (cs0, os0)

/-- Recursive restatement of the scan-then-rewrite shape of
`parse_str_nilterm` (proof helper): pass bytes through until the first one
that needs rewriting, then run the rewriting loop. -/
def sanitizeRec (sep : Nat → Bool) (nilterm ignore_sep : Bool) : List Nat → List Nat
  | [] => []
  | b :: rest =>
    if badByte sep ignore_sep b then sanitizeTail sep nilterm ignore_sep (b :: rest)
    else b :: sanitizeRec sep nilterm ignore_sep rest

theorem read_exact_ok {l : List Nat} {p : Parser} {n : Nat} {buf : List Nat} {p' : Parser}
    (hps : PS l p) (h : read_exact p n = .ok (buf, p')) :
    PS l p' ∧ p'.len = p.len + n ∧ buf = (l.drop p.len).take n ∧ p.len + n ≤ l.length := by
  obtain ⟨h1, h2, h3, h4, h5⟩ := hps
  unfold read_exact at h
  split at h
  case isTrue hn =>
    rw [h1] at hn
    simp only [List.length_drop] at hn
    injection h with h
    injection h with hbuf hp'
    have hlen : p.len + n ≤ l.length := by omega
    have hbuf' : buf = (l.drop p.len).take n := by rw [← hbuf, h1]
    have htake : (p.rd.take n).length = n := by
      rw [h1]; simp only [List.length_take, List.length_drop]; omega
    subst hp'
    have hT : (List.take n (List.drop p.len l)).length = n := by
      simp only [List.length_take, List.length_drop]; omega
    have hsplit : (l.take (p.len + n)).drop 2 =
        (l.take p.len).drop 2 ++ (l.drop p.len).take n := by
      rw [List.take_add, List.drop_append_of_le_length (by simp only [List.length_take]; omega)]
    refine ⟨⟨?_, ?_, ?_, ?_, ?_⟩, ?_, hbuf', hlen⟩
    · simp only [update_checksums, update_checksums_no_wrapping_sum, h1, hT,
        List.drop_drop]
    · simp only [update_checksums, update_checksums_no_wrapping_sum, h1, hT]; omega
    · simp only [update_checksums, update_checksums_no_wrapping_sum, h1, hT, h3]
      rw [← List.take_add]
    · simp only [update_checksums, update_checksums_no_wrapping_sum, h1, hT]; omega
    · simp only [update_checksums, update_checksums_no_wrapping_sum, h1, hT,
        wrapping_csum, h5]
      rw [hsplit, List.sum_append]
      omega
    · simp only [update_checksums, update_checksums_no_wrapping_sum, h1, hT]
  case isFalse => simp at h

theorem read_limit_eq_read_exact {p : Parser} {n : Nat} {x : List Nat × Parser}
    (h : read_limit p n = .ok x) : read_exact p n = .ok x := by
  unfold read_limit at h; unfold read_exact; split at h <;> simp_all

theorem read_limit_ok {l : List Nat} {p : Parser} {n : Nat} {buf : List Nat} {p' : Parser}
    (hps : PS l p) (h : read_limit p n = .ok (buf, p')) :
    PS l p' ∧ p'.len = p.len + n ∧ buf = (l.drop p.len).take n ∧ p.len + n ≤ l.length :=
  read_exact_ok hps (read_limit_eq_read_exact h)

theorem read_u8_ok {l : List Nat} {p : Parser} {v : Nat} {p' : Parser}
    (hps : PS l p) (h : read_u8 p = .ok (v, p')) :
    PS l p' ∧ p'.len = p.len + 1 ∧ v = leNum ((l.drop p.len).take 1) ∧ p.len + 1 ≤ l.length := by
  unfold read_u8 at h
  cases he : read_exact p 1 with
  | error e => rw [he] at h; simp at h
  | ok x =>
    obtain ⟨buf, p2⟩ := x
    rw [he] at h
    simp only [Except.ok.injEq, Prod.mk.injEq] at h
    obtain ⟨hv, hp⟩ := h
    obtain ⟨a, b, c, d⟩ := read_exact_ok hps he
    subst hp; subst hv; subst c
    exact ⟨a, b, rfl, d⟩

theorem read_u16_ok {l : List Nat} {p : Parser} {v : Nat} {p' : Parser}
    (hps : PS l p) (h : read_u16 p = .ok (v, p')) :
    PS l p' ∧ p'.len = p.len + 2 ∧ v = leNum ((l.drop p.len).take 2) ∧ p.len + 2 ≤ l.length := by
  unfold read_u16 at h
  cases he : read_exact p 2 with
  | error e => rw [he] at h; simp at h
  | ok x =>
    obtain ⟨buf, p2⟩ := x
    rw [he] at h
    simp only [Except.ok.injEq, Prod.mk.injEq] at h
    obtain ⟨hv, hp⟩ := h
    obtain ⟨a, b, c, d⟩ := read_exact_ok hps he
    subst hp; subst hv; subst c
    exact ⟨a, b, rfl, d⟩

theorem read_u32_ok {l : List Nat} {p : Parser} {v : Nat} {p' : Parser}
    (hps : PS l p) (h : read_u32 p = .ok (v, p')) :
    PS l p' ∧ p'.len = p.len + 4 ∧ v = leNum ((l.drop p.len).take 4) ∧ p.len + 4 ≤ l.length := by
  unfold read_u32 at h
  cases he : read_exact p 4 with
  | error e => rw [he] at h; simp at h
  | ok x =>
    obtain ⟨buf, p2⟩ := x
    rw [he] at h
    simp only [Except.ok.injEq, Prod.mk.injEq] at h
    obtain ⟨hv, hp⟩ := h
    obtain ⟨a, b, c, d⟩ := read_exact_ok hps he
    subst hp; subst hv; subst c
    exact ⟨a, b, rfl, d⟩

theorem readFilename_ok {level h : Nat} {l : List Nat} {p : Parser} {fn : List Nat}
    {p' : Parser} (hps : PS l p) (hf : readFilename level h p = .ok (fn, p')) :
    PS l p' ∧ (level < 2 → p'.len = p.len + 1 + fn.length) ∧
    (¬ level < 2 → p' = p ∧ fn = []) := by
  unfold readFilename at hf
  split at hf
  next hlev =>
    split at hf
    next e heq => simp at hf
    next fnLen p1 heq =>
      split at hf
      · simp at hf
      next hcond =>
        obtain ⟨ps1, hlen1, hv, hle⟩ := read_u8_ok hps heq
        obtain ⟨ps2, hlen2, hbuf, hle2⟩ := read_limit_ok ps1 hf
        have hfn : fn.length = fnLen := by
          rw [hbuf]; simp only [List.length_take, List.length_drop]; omega
        exact ⟨ps2, fun _ => by omega, fun hc => absurd hlev hc⟩
  next hlev =>
    simp only [Except.ok.injEq, Prod.mk.injEq] at hf
    obtain ⟨hfn, hp⟩ := hf
    subst hp; subst hfn
    exact ⟨hps, fun hc => absurd hc hlev, fun _ => ⟨rfl, rfl⟩⟩

theorem readExtOs_ok {level h ost min_len : Nat} {l : List Nat} {p : Parser}
    {elen o : Nat} {p' : Parser} (hps : PS l p)
    (hf : readExtOs level h ost min_len p = .ok (elen, o, p')) :
    PS l p' ∧
    (h - min_len ≠ 0 ∧ level = 0 → p'.len = p.len + 1 ∧ elen = h - min_len - 1) ∧
    (¬ (h - min_len ≠ 0 ∧ level = 0) → p' = p ∧ elen = h - min_len) := by
  unfold readExtOs at hf
  split at hf
  next hcond =>
    cases hu : read_u8 p with
    | error e => rw [hu] at hf; simp at hf
    | ok y =>
      obtain ⟨o2, p2⟩ := y
      rw [hu] at hf
      simp only [Except.ok.injEq, Prod.mk.injEq] at hf
      obtain ⟨hf1, hf2, hf3⟩ := hf
      subst hf1; subst hf3
      obtain ⟨ps1, hlen1, _, _⟩ := read_u8_ok hps hu
      exact ⟨ps1, fun _ => ⟨hlen1, rfl⟩, fun hc => absurd hcond hc⟩
  next hcond =>
    simp only [Except.ok.injEq, Prod.mk.injEq] at hf
    obtain ⟨hf1, hf2, hf3⟩ := hf
    subst hf1; subst hf3
    exact ⟨hps, fun hc => absurd hc hcond, fun _ => ⟨rfl, rfl⟩⟩

theorem readExtended_ok {level h ost min_len : Nat} {l : List Nat} {p : Parser} {o : Nat}
    {ea : List Nat} {p' : Parser} (hps : PS l p)
    (hf : readExtended level h ost min_len p = .ok (o, ea, p')) :
    PS l p' ∧ (level < 2 → p'.len = p.len + (h - min_len) ∧ min_len ≤ h) ∧
    (¬ level < 2 → p' = p) := by
  unfold readExtended at hf
  split at hf
  next hlev =>
    split at hf
    · simp at hf
    next hmin =>
      split at hf
      next e heq => simp at hf
      next elen o1 p1 heq =>
        obtain ⟨ps1, hosA, hosB⟩ := readExtOs_ok hps heq
        have hlen1 : p1.len + elen = p.len + (h - min_len) := by
          by_cases hc : h - min_len ≠ 0 ∧ level = 0
          · obtain ⟨ha, hb⟩ := hosA hc; omega
          · obtain ⟨ha, hb⟩ := hosB hc; subst ha; omega
        split at hf
        next hne =>
          split at hf
          next e heq2 => simp at hf
          next ea1 p3 heq2 =>
            simp only [Except.ok.injEq, Prod.mk.injEq] at hf
            obtain ⟨hf1, hf2, hf3⟩ := hf
            subst hf3
            obtain ⟨ps2, hlen2, _, _⟩ := read_limit_ok ps1 heq2
            exact ⟨ps2, fun _ => ⟨by omega, by omega⟩, fun hc => absurd hlev hc⟩
        next hne =>
          simp only [Except.ok.injEq, Prod.mk.injEq] at hf
          obtain ⟨hf1, hf2, hf3⟩ := hf
          subst hf3
          exact ⟨ps1, fun _ => ⟨by omega, by omega⟩, fun hc => absurd hlev hc⟩
  next hlev =>
    simp only [Except.ok.injEq, Prod.mk.injEq] at hf
    obtain ⟨hf1, hf2, hf3⟩ := hf
    subst hf3
    exact ⟨hps, fun hc => absurd hc hlev, fun _ => rfl⟩

theorem readLens_ok {level h c : Nat} {l : List Nat} {p : Parser} {lng fst : Nat}
    {p' : Parser} (hps : PS l p) (hf : readLens level h c p = .ok (lng, fst, p')) :
    PS l p' ∧
    (level = 0 → lng = 0 ∧ fst = 0 ∧ p' = p) ∧
    (level = 1 → lng = 0 ∧ p'.len = p.len + 2) ∧
    (level = 2 → lng = leNum [h, c] ∧ p'.len = p.len + 2) ∧
    (level = 3 → h = 4 ∧ c = 0 ∧ p'.len = p.len + 8) := by
  unfold readLens at hf
  split at hf
  next hl1 =>
    split at hf
    next e heq => simp at hf
    next f p1 heq =>
      simp only [Except.ok.injEq, Prod.mk.injEq] at hf
      obtain ⟨hf1, hf2, hf3⟩ := hf
      subst hf1; subst hf2; subst hf3
      obtain ⟨ps1, hlen1, _, _⟩ := read_u16_ok hps heq
      exact ⟨ps1, fun hc => by omega, fun _ => ⟨rfl, hlen1⟩,
        fun hc => by omega, fun hc => by omega⟩
  next hl1 =>
    split at hf
    next hl2 =>
      split at hf
      next e heq => simp at hf
      next f p1 heq =>
        simp only [Except.ok.injEq, Prod.mk.injEq] at hf
        obtain ⟨hf1, hf2, hf3⟩ := hf
        subst hf1; subst hf2; subst hf3
        obtain ⟨ps1, hlen1, _, _⟩ := read_u16_ok hps heq
        exact ⟨ps1, fun hc => by omega, fun hc => by omega,
          fun _ => ⟨rfl, hlen1⟩, fun hc => by omega⟩
    next hl2 =>
      split at hf
      next hl3 =>
        split at hf
        next e heq => simp at hf
        next lo p1 heq =>
          split at hf
          next e heq2 => simp at hf
          next f p2 heq2 =>
            split at hf
            · simp at hf
            next hcond =>
              simp only [Except.ok.injEq, Prod.mk.injEq] at hf
              obtain ⟨hf1, hf2, hf3⟩ := hf
              subst hf1; subst hf2; subst hf3
              obtain ⟨ps1, hlen1, _, _⟩ := read_u32_ok hps heq
              obtain ⟨ps2, hlen2, _, _⟩ := read_u32_ok ps1 heq2
              push_neg at hcond
              exact ⟨ps2, fun hc => by omega, fun hc => by omega, fun hc => by omega,
                fun _ => ⟨hcond.1, hcond.2, by omega⟩⟩
      next hl3 =>
        simp only [Except.ok.injEq, Prod.mk.injEq] at hf
        obtain ⟨hf1, hf2, hf3⟩ := hf
        subst hf1; subst hf2; subst hf3
        exact ⟨hps, fun _ => ⟨rfl, rfl, rfl⟩, fun hc => absurd hc hl1,
          fun hc => absurd hc hl2, fun hc => absurd hc hl3⟩

theorem validatePre_ok {level c lng fst : Nat} {p : Parser}
    (hf : validatePre level c lng fst p = .ok ()) :
    (level < 2 → c = p.csum) ∧
    (¬ level < 2 → ¬ (lng < (p.len % M32 + fst) % M32)) := by
  unfold validatePre at hf
  split at hf
  next hlev =>
    split at hf
    · simp at hf
    next hc =>
      push_neg at hc
      exact ⟨fun _ => hc, fun hcc => absurd hlev hcc⟩
  next hlev =>
    split at hf
    · simp at hf
    next hc => exact ⟨fun hcc => absurd hcc hlev, fun _ => hc⟩

theorem leNum_singleton (a : Nat) : leNum [a] = a := by simp [leNum]

theorem take_one_getD {rest : List Nat} (h : 1 ≤ rest.length) :
    rest.take 1 = [rest.getD 0 0] := by
  cases rest with
  | nil => simp at h
  | cons a t => simp

/-- Master characterization of a successful `readPre`: state tracking, the
prolog bytes, the decoded base, and the per-level length / checksum facts
established by the validation that precedes the extra-header walk. -/
theorem readPre_ok {l : List Nat} {pre : PreState} (h : readPre l = .ok (some pre)) :
    PS l pre.p ∧
    pre.header_len = l.getD 0 0 ∧ pre.header_len ≠ 0 ∧ pre.csum_byte = l.getD 1 0 ∧
    pre.base = parseRawBase ((l.drop 2).take 19) ∧
    pre.base.lha_level ≤ 3 ∧
    (pre.base.lha_level < 2 →
       pre.p.len = pre.header_len + 2 ∧ pre.long_header_len = 0 ∧
       pre.csum_byte = ((l.take pre.p.len).drop 2).sum % 256) ∧
    (pre.base.lha_level = 0 → pre.first_header_len = 0) ∧
    (2 ≤ pre.base.lha_level →
       ¬ (pre.long_header_len < (pre.p.len % M32 + pre.first_header_len) % M32)) ∧
    (pre.base.lha_level = 2 →
       pre.long_header_len = leNum [pre.header_len, pre.csum_byte] ∧ pre.p.len = 26) ∧
    (pre.base.lha_level = 3 → pre.p.len = 32) := by
  unfold readPre at h
  split at h
  next x heq => simp at h
  next h0 p1 heq =>
    -- the first byte: l is non-empty and h0 is its head
    have hl : l = h0 :: l.tail ∧ p1 = { rd := l.tail, crcData := [h0], csum := 0, len := 1 } := by
      unfold read_u8_or_none at heq
      cases hll : l with
      | nil =>
        rw [hll] at heq; simp at heq
      | cons b rest =>
        rw [hll] at heq
        simp only [update_checksums_no_wrapping_sum, Prod.mk.injEq, Option.some.injEq] at heq
        obtain ⟨hb, hp⟩ := heq
        subst hb
        constructor
        · simp
        · rw [← hp]; simp [update_checksums_no_wrapping_sum]
    obtain ⟨hlcons, hp1⟩ := hl
    split at h
    · simp at h
    next hne =>
      split at h
      next e heq2 => simp at h
      next c p2 heq2 =>
        -- the second byte
        have hp2 : 1 ≤ l.tail.length ∧ c = l.getD 1 0 ∧
            p2.rd = l.tail.drop 1 ∧ p2.crcData = [h0] ++ l.tail.take 1 ∧ p2.len = 2 := by
          unfold read_u8 read_exact at heq2
          rw [hp1] at heq2
          split at heq2
          next buf p9 heqIf =>
            simp only [Except.ok.injEq, Prod.mk.injEq] at heq2
            obtain ⟨hc, hp⟩ := heq2
            split at heqIf
            next hle =>
              simp only [Except.ok.injEq, Prod.mk.injEq] at heqIf
              obtain ⟨hbuf, hp9⟩ := heqIf
              have hle2 : 1 ≤ l.tail.length := by simpa using hle
              subst hp
              refine ⟨hle2, ?_, ?_, ?_, ?_⟩
              · rw [← hc, ← hbuf, take_one_getD hle2, leNum_singleton]
                conv_rhs => rw [hlcons]
                simp
              · rw [← hp9]
                simp [update_checksums, update_checksums_no_wrapping_sum]
              · rw [← hp9]
                simp [update_checksums, update_checksums_no_wrapping_sum]
              · rw [← hp9]
                simp only [update_checksums, update_checksums_no_wrapping_sum]
                have ht1 : (l.tail.take 1).length = 1 := by
                  simp only [List.length_take]; omega
                simp [ht1]
            next => simp at heqIf
          next e heqIf => simp at heq2
        obtain ⟨htl, hcval, hp2rd, hp2crc, hp2len⟩ := hp2
        have hlen2 : 2 ≤ l.length := by
          conv_rhs => rw [hlcons]
          simp only [List.length_cons]; omega
        have hps2 : PS l { p2 with csum := 0 } := by
          refine ⟨?_, ?_, ?_, ?_, ?_⟩
          · show p2.rd = l.drop p2.len
            rw [hp2rd, hp2len]
            conv_rhs => rw [hlcons]
            simp
          · show p2.len ≤ l.length
            omega
          · show p2.crcData = l.take p2.len
            rw [hp2crc, hp2len]
            conv_rhs => rw [hlcons]
            cases hlt : l.tail with
            | nil => rw [hlt] at htl; simp at htl
            | cons a t => simp
          · show 2 ≤ p2.len
            omega
          · show (0 : Nat) = ((l.take p2.len).drop 2).sum % 256
            rw [hp2len]
            have : (l.take 2).drop 2 = [] := by
              simp only [List.drop_take]
              simp
            rw [this]
            simp
        split at h
        next e heq3 => simp at h
        next bb p3 heq3 =>
          obtain ⟨hps3, hlen3, hbb, hle3⟩ := read_exact_ok hps2 heq3
          simp only at hlen3
          split at h
          · simp at h
          next hlev3 =>
            split at h
            next e heq4 => simp at h
            next fn p4 heq4 =>
              obtain ⟨hps4, hlen4A, hlen4B⟩ := readFilename_ok hps3 heq4
              split at h
              next e heq5 => simp at h
              next fcrc p5 heq5 =>
                obtain ⟨hps5, hlen5, _, _⟩ := read_u16_ok hps4 heq5
                split at h
                next e heq6 => simp at h
                next ost0 p6 heq6 =>
                  have hos : PS l p6 ∧
                      (0 < (parseRawBase bb).lha_level → p6.len = p5.len + 1) ∧
                      (¬ 0 < (parseRawBase bb).lha_level → p6 = p5) := by
                    split at heq6
                    next hpos =>
                      obtain ⟨a, b, _, _⟩ := read_u8_ok hps5 heq6
                      exact ⟨a, fun _ => b, fun hc => absurd hpos hc⟩
                    next hpos =>
                      simp only [Except.ok.injEq, Prod.mk.injEq] at heq6
                      obtain ⟨h1, h2⟩ := heq6
                      subst h2
                      exact ⟨hps5, fun hc => absurd hc hpos, fun _ => rfl⟩
                  obtain ⟨hps6, hos1, hos2⟩ := hos
                  split at h
                  next e heq7 => simp at h
                  next ost ea p7 heq7 =>
                    obtain ⟨hps7, hext1, hext2⟩ := readExtended_ok hps6 heq7
                    split at h
                    next e heq8 => simp at h
                    next lng fst p8 heq8 =>
                      obtain ⟨hps8, hlns0, hlns1, hlns2, hlns3⟩ := readLens_ok hps7 heq8
                      split at h
                      next e heq9 => simp at h
                      next u heq9 =>
                        obtain ⟨hval1, hval2⟩ := validatePre_ok (by cases u; exact heq9)
                        simp only [Except.ok.injEq, Option.some.injEq] at h
                        subst h
                        -- now assemble all the facts
                        simp only
                        have hgd0 : l.getD 0 0 = h0 := by
                          conv_lhs => rw [hlcons]
                          simp
                        have hbase : parseRawBase bb = parseRawBase ((l.drop 2).take 19) := by
                          rw [hbb]
                          simp only [hp2len]
                        have hl21 : p3.len = 21 := by
                          simp only [hp2len] at hlen3
                          omega
                        refine ⟨hps8, hgd0.symm, hne, hcval, hbase, by omega, ?_, ?_, ?_, ?_, ?_⟩
                        · intro hlt2
                          have hfn4 : p4.len = p3.len + 1 + fn.length := hlen4A hlt2
                          have hext := hext1 hlt2
                          have hcsum : c = p8.csum := hval1 hlt2
                          obtain ⟨_, _, _, _, hps8csum⟩ := hps8
                          refine ⟨?_, ?_, by rw [hcsum, hps8csum]⟩
                          · -- the consumed length is h0 + 2
                            by_cases hl0 : (parseRawBase bb).lha_level = 0
                            · have h6 : p6 = p5 := hos2 (by omega)
                              have h8 : p8 = p7 := (hlns0 hl0).2.2
                              rw [if_pos hl0] at hext
                              rw [h8]
                              have : p6.len = p5.len := by rw [h6]
                              omega
                            · have hl1 : (parseRawBase bb).lha_level = 1 := by omega
                              have h6 : p6.len = p5.len + 1 := hos1 (by omega)
                              have h8 : p8.len = p7.len + 2 := (hlns1 hl1).2
                              rw [if_neg hl0] at hext
                              omega
                          · by_cases hl0 : (parseRawBase bb).lha_level = 0
                            · exact (hlns0 hl0).1
                            · exact (hlns1 (by omega)).1
                        · intro hl0
                          exact (hlns0 hl0).2.1
                        · intro hge2
                          exact hval2 (by omega)
                        · intro hl2
                          obtain ⟨ha, hb⟩ := hlns2 hl2
                          have h4 : p4 = p3 ∧ fn = [] := hlen4B (by omega)
                          have h6 : p6.len = p5.len + 1 := hos1 (by omega)
                          have h7 : p7 = p6 := hext2 (by omega)
                          refine ⟨by rw [ha], ?_⟩
                          have : p4.len = p3.len := by rw [h4.1]
                          have : p7.len = p6.len := by rw [h7]
                          omega
                        · intro hl3
                          obtain ⟨ha, hb, hc3⟩ := hlns3 hl3
                          have h4 : p4 = p3 ∧ fn = [] := hlen4B (by omega)
                          have h6 : p6.len = p5.len + 1 := hos1 (by omega)
                          have h7 : p7 = p6 := hext2 (by omega)
                          have h4l : p4.len = p3.len := by rw [h4.1]
                          have h7l : p7.len = p6.len := by rw [h7]
                          omega

/-! ### Lemmas about the extra-header walk -/

theorem zero2At_append_left {A B : List Nat} {i : Nat} (h : i + 2 ≤ A.length) :
    zero2At (A ++ B) i = zero2At A i ++ B := by
  unfold zero2At
  rw [List.set_append_left i 0 (by omega),
    List.set_append_left (i + 1) 0 (by simp only [List.length_set]; omega)]

theorem zero2At_append_right {A B : List Nat} {i : Nat} (h : A.length ≤ i) :
    zero2At (A ++ B) i = A ++ zero2At B (i - A.length) := by
  unfold zero2At
  rw [List.set_append_right i 0 (by omega),
    List.set_append_right (i + 1) 0 (by omega)]
  congr 2
  omega

theorem edited_common_eq_zero2At {data : List Nat} (h : 2 ≤ data.length) :
    0 :: 0 :: 0 :: data.drop 2 = zero2At (0 :: data) 1 := by
  match data, h with
  | d0 :: d1 :: rest, _ => rfl

theorem sizeStep_of_lt_two {level : Nat} (hlev : level < 2) (ac : Nat × Nat)
    (r : List Nat) : sizeStep level ac r = ac := by
  cases r with
  | nil => rfl
  | cons b data =>
    simp only [sizeStep]
    rw [if_neg (by omega)]

theorem sizeStep_cons_ne {level : Nat} {ac : Nat × Nat} {b : Nat} {data : List Nat}
    (hb : ¬ b = 66) : sizeStep level ac (b :: data) = ac := by
  simp only [sizeStep]
  rw [if_neg (fun hc => hb hc.1)]

theorem sizeStep_cons_pos {level : Nat} {ac : Nat × Nat} {data : List Nat}
    (h1 : 2 ≤ level) (h2 : 16 ≤ data.length) :
    sizeStep level ac (66 :: data) = (leNum (data.take 8), leNum ((data.drop 8).take 8)) := by
  simp [sizeStep, h1, h2]

theorem sizeStep_cons_neg {level : Nat} {ac : Nat × Nat} {b : Nat} {data : List Nat}
    (h : ¬ (b = 66 ∧ 2 ≤ level ∧ 16 ≤ data.length)) :
    sizeStep level ac (b :: data) = ac := by
  simp only [sizeStep]
  rw [if_neg h]

theorem read_limit_no_checksums_ok {p : Parser} {n : Nat} {buf : List Nat} {p' : Parser}
    (h : read_limit_no_checksums p n = .ok (buf, p')) :
    buf = p.rd.take n ∧ p'.rd = p.rd.drop n ∧ p'.crcData = p.crcData ∧
    p'.len = p.len ∧ n ≤ p.rd.length := by
  unfold read_limit_no_checksums at h
  split at h
  next hle =>
    simp only [Except.ok.injEq, Prod.mk.injEq] at h
    obtain ⟨h1, h2⟩ := h
    subst h2
    exact ⟨h1.symm, rfl, rfl, rfl, hle⟩
  next => simp at h

theorem processRecord_ok {level : Nat} {st : ExtraState} {pos : Nat} {raw edited : List Nat}
    {st1 : ExtraState} (hcur : 3 ≤ raw.length)
    (h : processRecord level st pos raw = .ok (edited, st1)) :
    edited.length = raw.length ∧
    st1.records = st.records ∧ st1.extra_headers = st.extra_headers ∧
    (st1.compressed_size, st1.original_size) =
      sizeStep level (st.compressed_size, st.original_size) edited ∧
    ((∃ data, raw = 0 :: data ∧ st.header_crc = none ∧
        edited = zero2At raw 1 ∧
        st1.header_crc = some (leNum (data.take 2)) ∧ st1.commonPos = some pos ∧
        edited.headD 1 = 0) ∨
     (edited = raw ∧ st1.header_crc = st.header_crc ∧ st1.commonPos = st.commonPos ∧
        raw.headD 1 ≠ 0)) := by
  cases raw with
  | nil => simp at hcur
  | cons b data =>
    have hdata : 2 ≤ data.length := by
      simp only [List.length_cons] at hcur; omega
    simp only [processRecord] at h
    split at h
    next hb0 =>
      subst hb0
      by_cases hcrc : st.header_crc.isSome
      · rw [if_pos hcrc] at h; simp at h
      · rw [if_neg hcrc] at h
        have hnone : ¬ st.header_crc.isSome = true := hcrc
        simp only [Except.ok.injEq, Prod.mk.injEq] at h
        obtain ⟨h1, h2⟩ := h
        subst h1; subst h2
        refine ⟨?_, rfl, rfl, ?_, .inl ⟨data, rfl, ?_, ?_, rfl, rfl, rfl⟩⟩
        · simp only [List.length_cons, List.length_drop]; omega
        · rw [sizeStep_cons_ne (by omega)]
        · cases hhc : st.header_crc with
          | none => rfl
          | some v => rw [hhc] at hnone; simp at hnone
        · exact edited_common_eq_zero2At hdata
    next hb0 =>
      split at h
      next hattr =>
        simp only [Except.ok.injEq, Prod.mk.injEq] at h
        obtain ⟨h1, h2⟩ := h
        subst h1; subst h2
        refine ⟨rfl, rfl, rfl, ?_, .inr ⟨rfl, rfl, rfl, by simp [List.headD, hb0]⟩⟩
        rw [sizeStep_cons_ne (by obtain ⟨hb, _⟩ := hattr; omega)]
      next hattr =>
        split at h
        next hsz =>
          simp only [Except.ok.injEq, Prod.mk.injEq] at h
          obtain ⟨h1, h2⟩ := h
          subst h1; subst h2
          obtain ⟨hb, hlev, hlen16⟩ := hsz
          subst hb
          rw [sizeStep_cons_pos hlev hlen16]
          exact ⟨rfl, rfl, rfl, rfl, .inr ⟨rfl, rfl, rfl, by simp [List.headD, hb0]⟩⟩
        next hsz =>
          simp only [Except.ok.injEq, Prod.mk.injEq] at h
          obtain ⟨h1, h2⟩ := h
          subst h1; subst h2
          rw [sizeStep_cons_neg hsz]
          exact ⟨rfl, rfl, rfl, rfl, .inr ⟨rfl, rfl, rfl, by simp [List.headD, hb0]⟩⟩

theorem extraLoop_ok (level lng : Nat) (l : List Nat) (cs0 os0 : Nat) :
    ∀ (fuel cur : Nat) (p : Parser) (st : ExtraState) (p' : Parser) (st' : ExtraState),
    extraLoop level lng fuel cur p st = .ok (p', st') →
    LoopInv l level cs0 os0 p st →
    LoopInv l level cs0 os0 p' st' ∧
    p'.len + st.extra_headers.length = p.len + st'.extra_headers.length ∧
    (lng ≠ 0 → p'.len = p.len ∨ p'.len ≤ lng + 2) ∧
    (lng = 0 ∧ level < 2 → st.extra_headers.length ≤ st.compressed_size →
       st'.extra_headers.length ≤ st'.compressed_size) := by
  intro fuel
  induction fuel with
  | zero =>
    intro cur p st p' st' h _
    simp [extraLoop] at h
  | succ fuel ih =>
    intro cur p st p' st' h hinv
    rw [extraLoop] at h
    split at h
    next hcur0 =>
      simp only [Except.ok.injEq, Prod.mk.injEq] at h
      obtain ⟨h1, h2⟩ := h
      subst h1; subst h2
      exact ⟨hinv, rfl, fun _ => .inl rfl, fun _ hb => hb⟩
    next hcur0 =>
      split at h
      · simp at h
      next hmin =>
        split at h
        · simp at h
        next hlong =>
          split at h
          · simp at h
          next hskip =>
            split at h
            next e heq => simp at h
            next raw p1 heq =>
              split at h
              next e heq2 => simp at h
              next edited st1 heq2 =>
                -- facts about this iteration
                obtain ⟨hT1, hT2, hT3, hT4, hT5, hT6, hT7, hT8⟩ := hinv
                obtain ⟨hraw, hp1rd, hp1crc, hp1len, hle⟩ := read_limit_no_checksums_ok heq
                have hmin3 : 3 ≤ minHeaderLen level := by
                  unfold minHeaderLen; split <;> omega
                have hcur3 : 3 ≤ cur := by omega
                have hrawlen : raw.length = cur := by
                  rw [hraw]; simp only [List.length_take]; omega
                have hrawslice : raw = (l.drop p.len).take cur := by rw [hraw, hT1]
                have hlenle : p.len + cur ≤ l.length := by
                  rw [hT1] at hle
                  simp only [List.length_drop] at hle
                  omega
                obtain ⟨hplen, hprec, hpeh, hpsz, hpcase⟩ :=
                  processRecord_ok (by omega) heq2
                -- the state passed to the recursive call
                have hp2rd : (update_checksums_no_wrapping_sum p1 edited).rd =
                    l.drop (p.len + cur) := by
                  simp only [update_checksums_no_wrapping_sum]
                  rw [hp1rd, hT1, List.drop_drop]
                have hp2len : (update_checksums_no_wrapping_sum p1 edited).len =
                    p.len + cur := by
                  simp only [update_checksums_no_wrapping_sum]
                  omega
                have hp2crc : (update_checksums_no_wrapping_sum p1 edited).crcData =
                    p.crcData ++ edited := by
                  simp only [update_checksums_no_wrapping_sum]
                  rw [hp1crc]
                have htakeadd : l.take (p.len + cur) = l.take p.len ++ raw := by
                  rw [List.take_add, hrawslice]
                have htakelen : (l.take p.len).length = p.len := by
                  simp only [List.length_take]; omega
                -- invariant for the new state
                have hinv2 : LoopInv l level cs0 os0 (update_checksums_no_wrapping_sum p1 edited)
                    { st1 with extra_headers := st1.extra_headers ++ edited,
                               records := st1.records ++ [edited] } := by
                  rcases hpcase with ⟨data, hrawd, hcrcnone, hed, hcrc1, hcp1, hhd⟩ |
                    ⟨hed, hcrc1, hcp1, hhd⟩
                  · -- a Common record was accepted here
                    have hcpnone : st.commonPos = none := by
                      cases hcpv : st.commonPos with
                      | none => rfl
                      | some v =>
                        rw [hcrcnone] at hT4
                        simp [hcpv] at hT4
                    refine ⟨by rw [hp2len]; exact hp2rd, by omega, ?_, ?_, ?_, ?_, ?_, ?_⟩
                    · show (update_checksums_no_wrapping_sum p1 edited).crcData =
                        maskCrc st1.commonPos (l.take (update_checksums_no_wrapping_sum p1 edited).len)
                      rw [hp2crc, hp2len, hT3, hcpnone]
                      simp only [maskCrc, hcp1, hp1len]
                      rw [htakeadd, hed, zero2At_append_right (by rw [htakelen]; omega)]
                      congr 2
                      rw [htakelen]
                      omega
                    · show st1.header_crc.isSome ↔ st1.commonPos.isSome
                      simp only [hcrc1, hcp1]
                      simp
                    · show ∀ cp, st1.commonPos = some cp → _
                      intro cp hcpe
                      simp only [hcp1, hp1len, Option.some.injEq] at hcpe
                      subst hcpe
                      rw [hp2len]
                      refine ⟨by omega, ?_⟩
                      rw [hcrc1]
                      congr 2
                      rw [hrawd] at hrawslice
                      have hdata2 : data = (l.drop (p.len + 1)).take (cur - 1) := by
                        have hh : (0 :: data).drop 1 = (((l.drop p.len).take cur).drop 1) := by
                          rw [← hrawslice]
                        simp only [List.drop_succ_cons, List.drop_zero] at hh
                        rw [hh, List.drop_take, List.drop_drop]
                      rw [hdata2, List.take_take]
                      congr 1
                      omega
                    · show countCommon (st1.records ++ [edited]) ≤ _
                      simp only [countCommon, List.countP_append]
                      have h1r : List.countP (fun r => r.headD 1 = 0) [edited] = 1 := by
                        simp [List.countP_cons]
                        rw [List.headD_eq_head?] at hhd
                        exact hhd
                      rw [hprec, h1r]
                      simp only [countCommon] at hT6
                      rw [hcrcnone] at hT6
                      simp only [Option.isSome_none, Bool.false_eq_true, if_false] at hT6
                      simp only [hcrc1]
                      simp only [Option.isSome_some, if_pos]
                      omega
                    · show st1.extra_headers ++ edited = (st1.records ++ [edited]).flatten
                      simp only [List.flatten_append, hpeh, hprec, hT7]
                      simp
                    · show (st1.compressed_size, st1.original_size) =
                        (st1.records ++ [edited]).foldl (sizeStep level) (cs0, os0)
                      simp only [List.foldl_append, hprec, ← hT8, List.foldl_cons,
                        List.foldl_nil]
                      exact hpsz
                  · -- not a Common record
                    refine ⟨by rw [hp2len]; exact hp2rd, by omega, ?_, ?_, ?_, ?_, ?_, ?_⟩
                    · show (update_checksums_no_wrapping_sum p1 edited).crcData =
                        maskCrc st1.commonPos (l.take (update_checksums_no_wrapping_sum p1 edited).len)
                      rw [hp2crc, hp2len, hT3, hcp1]
                      cases hcpv : st.commonPos with
                      | none =>
                        simp only [maskCrc]
                        rw [htakeadd, hed]
                      | some cp =>
                        obtain ⟨hcp3, _⟩ := hT5 cp hcpv
                        simp only [maskCrc]
                        rw [htakeadd, hed, zero2At_append_left (by rw [htakelen]; omega)]
                    · show st1.header_crc.isSome ↔ st1.commonPos.isSome
                      rw [hcrc1, hcp1]; exact hT4
                    · show ∀ cp, st1.commonPos = some cp → _
                      intro cp hcpe
                      rw [hcp1] at hcpe
                      obtain ⟨hcp3, hcrcv⟩ := hT5 cp hcpe
                      rw [hcrc1, hp2len]
                      exact ⟨by omega, hcrcv⟩
                    · show countCommon (st1.records ++ [edited]) ≤ _
                      simp only [countCommon, List.countP_append]
                      have h0r : List.countP (fun r => r.headD 1 = 0) [edited] = 0 := by
                        rw [hed]
                        simp [List.countP_cons]
                        rw [List.headD_eq_head?] at hhd
                        exact hhd
                      rw [hprec, h0r, hcrc1]
                      simp only [countCommon] at hT6
                      omega
                    · show st1.extra_headers ++ edited = (st1.records ++ [edited]).flatten
                      simp only [List.flatten_append, hpeh, hprec, hT7]
                      simp
                    · show (st1.compressed_size, st1.original_size) =
                        (st1.records ++ [edited]).foldl (sizeStep level) (cs0, os0)
                      simp only [List.foldl_append, hprec, ← hT8, List.foldl_cons,
                        List.foldl_nil]
                      exact hpsz
                obtain ⟨ihInv, ihLen, ihLng, ihSkip⟩ := ih _ _ _ _ _ h hinv2
                refine ⟨ihInv, ?_, ?_, ?_⟩
                · simp only [hpeh] at ihLen
                  simp only [List.length_append, hplen, hrawlen] at ihLen
                  rw [hp2len] at ihLen
                  omega
                · intro hlngne
                  rcases ihLng hlngne with hsame | hbound
                  · right
                    rw [hsame, hp2len]
                    have : ¬ (lng ≠ 0 ∧ lng < p.len + cur - 2) := hlong
                    omega
                  · right; exact hbound
                · intro hcond hbase
                  obtain ⟨hlng0, hlev2⟩ := hcond
                  have hnoskip : ¬ (lng = 0 ∧
                      st.compressed_size < st.extra_headers.length + cur) := hskip
                  have hble : st.extra_headers.length + cur ≤ st.compressed_size := by
                    by_cases hc : st.compressed_size < st.extra_headers.length + cur
                    · exact absurd ⟨hlng0, hc⟩ hnoskip
                    · omega
                  have hcs1 : st1.compressed_size = st.compressed_size := by
                    have := hpsz
                    rw [sizeStep_of_lt_two hlev2] at this
                    exact (Prod.mk.injEq _ _ _ _ ▸ this).1
                  apply ihSkip ⟨hlng0, hlev2⟩
                  simp only [List.length_append, hpeh, hplen, hrawlen, hcs1]
                  omega

theorem read_u8_track {l : List Nat} {p : Parser} {v : Nat} {p' : Parser}
    (hrd : p.rd = l.drop p.len) (hlen : p.len ≤ l.length)
    (h : read_u8 p = .ok (v, p')) :
    p'.len = p.len + 1 ∧ p'.crcData = p.crcData ++ (l.drop p.len).take 1 ∧
    p'.rd = l.drop p'.len ∧ p'.len ≤ l.length := by
  unfold read_u8 read_exact at h
  split at h
  next buf p9 heqIf =>
    simp only [Except.ok.injEq, Prod.mk.injEq] at h
    obtain ⟨hv, hp⟩ := h
    split at heqIf
    next hle =>
      simp only [Except.ok.injEq, Prod.mk.injEq] at heqIf
      obtain ⟨hbuf, hp9⟩ := heqIf
      subst hp; subst hp9
      rw [hrd] at hle
      simp only [List.length_drop] at hle
      have ht1 : (p.rd.take 1).length = 1 := by
        rw [hrd]; simp only [List.length_take, List.length_drop]; omega
      have ht2 : (List.take 1 (List.drop p.len l)).length = 1 := by
        simp only [List.length_take, List.length_drop]; omega
      refine ⟨?_, ?_, ?_, ?_⟩
      · simp only [update_checksums, update_checksums_no_wrapping_sum, ht1]
      · simp only [update_checksums, update_checksums_no_wrapping_sum, hrd]
      · simp only [update_checksums, update_checksums_no_wrapping_sum, ht1, hrd,
          List.drop_drop, ht2]
      · simp only [update_checksums, update_checksums_no_wrapping_sum, ht1]
        omega
    next => simp at heqIf
  next e heqIf => simp at h

theorem validateLong_ok {level lng : Nat} {l : List Nat} {p p' : Parser}
    (hrd : p.rd = l.drop p.len) (hlen : p.len ≤ l.length)
    (h : validateLong level lng p = .ok p') :
    (level ≠ 2 → p' = p) ∧
    (lng = 0 → p' = p) ∧
    (p' = p ∨
      (p'.len = p.len + 1 ∧ p'.crcData = p.crcData ++ (l.drop p.len).take 1 ∧
       p'.rd = l.drop p'.len ∧ p'.len ≤ l.length)) ∧
    (lng ≠ 0 → level = 2 →
      ((lng = p.len % M32 ∧ p' = p) ∨
       (lng = (p.len % M32 + 1) % M32 ∧ p'.len = p.len + 1) ∨
       ((lng + 2) % M32 = p.len % M32 ∧ p' = p))) := by
  unfold validateLong at h
  split at h
  next hlng =>
    split at h
    next hne =>
      split at h
      next hpad =>
        split at h
        next e heq => simp at h
        next v p2 heq =>
          simp only [Except.ok.injEq] at h
          subst h
          obtain ⟨ha, hb, hc, hd⟩ := read_u8_track hrd hlen heq
          obtain ⟨hl2, heqpad⟩ := hpad
          refine ⟨fun hc2 => absurd hl2 hc2, fun hc2 => absurd hc2 hlng, ?_, ?_⟩
          · exact .inr ⟨ha, hb, hc, hd⟩
          · intro _ _
            exact .inr (.inl ⟨heqpad, ha⟩)
      next hpad =>
        split at h
        · simp at h
        next hosk =>
          simp only [Except.ok.injEq] at h
          subst h
          refine ⟨fun _ => rfl, fun _ => rfl, .inl rfl, ?_⟩
          intro _ hl2
          right; right
          refine ⟨?_, rfl⟩
          by_cases hq : (lng + 2) % M32 = p.len % M32
          · exact hq
          · exact absurd ⟨hl2, hq⟩ hosk
    next hne =>
      simp only [Except.ok.injEq] at h
      subst h
      push_neg at hne
      exact ⟨fun _ => rfl, fun _ => rfl, .inl rfl, fun _ _ => .inl ⟨hne, rfl⟩⟩
  next hlng =>
    simp only [Except.ok.injEq] at h
    subst h
    push_neg at hlng
    exact ⟨fun _ => rfl, fun _ => rfl, .inl rfl, fun hc _ => absurd hlng hc⟩

theorem validateCrc_ok {hcrc : Option Nat} {p : Parser} {u : Unit}
    (h : validateCrc hcrc p = .ok u) :
    ∀ c, hcrc = some c → c = crc16 p.crcData := by
  intro c hc
  subst hc
  simp only [validateCrc] at h
  split at h
  · simp at h
  next hne =>
    push_neg at hne
    exact hne

theorem adjustCompressed_ok {level extraLen cs cs' : Nat}
    (h : adjustCompressed level extraLen cs = .ok cs') :
    (level = 1 → extraLen ≤ cs ∧ cs' = cs - extraLen) ∧ (level ≠ 1 → cs' = cs) := by
  unfold adjustCompressed at h
  split at h
  next hl1 =>
    split at h
    · simp at h
    next hle =>
      simp only [Except.ok.injEq] at h
      exact ⟨fun _ => ⟨by omega, h.symm⟩, fun hc => absurd hl1 hc⟩
  next hl1 =>
    simp only [Except.ok.injEq] at h
    exact ⟨fun hc => absurd hc hl1, fun _ => h.symm⟩

/-- The initial walk state satisfies the loop invariant. -/
theorem loopInv_init {l : List Nat} {level : Nat} {p : Parser} {cs0 os0 attrs : Nat}
    (hrd : p.rd = l.drop p.len) (hlen : p.len ≤ l.length) (hcrc : p.crcData = l.take p.len) :
    LoopInv l level cs0 os0 p
      { extra_headers := [], records := [], header_crc := none, commonPos := none,
        msdos_attrs := attrs, compressed_size := cs0, original_size := os0 } := by
  refine ⟨hrd, hlen, ?_, by simp, ?_, ?_, rfl, rfl⟩
  · simpa [maskCrc] using hcrc
  · intro cp hcp
    simp at hcp
  · simp [countCommon]

/-- Inversion of a successful `readAux` into its stages. -/
theorem readAux_ok {l : List Nat} {hdr : LhaHeader} {pf : Parser} {g : Ghost}
    (h : readAux l = .ok (some (hdr, pf, g))) :
    ∃ (pre : PreState) (p1 : Parser) (st : ExtraState) (cs' : Nat),
      readPre l = .ok (some pre) ∧
      extraLoop pre.base.lha_level pre.long_header_len (pre.p.rd.length + 1)
        pre.first_header_len pre.p
        { extra_headers := [], records := [], header_crc := none, commonPos := none,
          msdos_attrs := pre.base.msdos_attrs,
          compressed_size := leNum pre.base.compressed_size,
          original_size := leNum pre.base.original_size } = .ok (p1, st) ∧
      validateLong pre.base.lha_level pre.long_header_len p1 = .ok pf ∧
      validateCrc st.header_crc pf = .ok () ∧
      adjustCompressed pre.base.lha_level st.extra_headers.length st.compressed_size
        = .ok cs' ∧
      hdr = { level := pre.base.lha_level, compression := pre.base.compression,
              compressed_size := cs', original_size := st.original_size,
              filename := pre.filename, os_type := pre.os_type,
              msdos_attrs := st.msdos_attrs,
              last_modified := leNum pre.base.last_modified,
              file_crc := pre.file_crc, extended_area := pre.extended_area,
              first_header_len := pre.first_header_len,
              extra_headers := st.extra_headers } ∧
      g = { header_len := pre.header_len, csum_byte := pre.csum_byte,
            long_header_len := pre.long_header_len,
            first_header_len := pre.first_header_len,
            records := st.records, header_crc := st.header_crc,
            commonPos := st.commonPos } := by
  unfold readAux at h
  split at h
  next e heq => simp at h
  next heq => simp at h
  next pre heq =>
    split at h
    next e heq2 => simp at h
    next p1 st heq2 =>
      split at h
      next e heq3 => simp at h
      next pf2 heq3 =>
        split at h
        next e heq4 => simp at h
        next u heq4 =>
          split at h
          next e heq5 => simp at h
          next cs2 heq5 =>
            simp only [Except.ok.injEq, Option.some.injEq, Prod.mk.injEq] at h
            obtain ⟨hh, hp, hg⟩ := h
            subst hp
            refine ⟨pre, p1, st, cs2, heq, heq2, heq3, by cases u; exact heq4, heq5,
              hh.symm, hg.symm⟩

theorem foldl_sizeStep_lt_two {level : Nat} (h : level < 2) (init : Nat × Nat)
    (rs : List (List Nat)) : rs.foldl (sizeStep level) init = init := by
  induction rs generalizing init with
  | nil => rfl
  | cons r rs ih =>
    rw [List.foldl_cons, sizeStep_of_lt_two h, ih]

/-! ### Claim theorems for the header parser -/

/-- Claim C4: for every header accepted by `LhaHeader::read`, the Common
extra header (identifier `0x00`) is accepted at most once — a second Common
record makes the walk fail with "double common CRC-16 header", so the
accepted record list can never contain two of them. -/
theorem c4_common_at_most_once (l : List Nat) (k : Nat)
    (h : readC4Count l = some k) : k ≤ 1 := by
  unfold readC4Count at h
  split at h
  next hdr pfin g heq =>
    simp only [Option.some.injEq] at h
    subst h
    obtain ⟨pre, p1, st, cs', hpre, hloop, hvl, hvc, hadj, hhdr, hg⟩ := readAux_ok heq
    obtain ⟨hps, _⟩ := readPre_ok hpre
    obtain ⟨hrd, hlen, hcrc, h2len, hcsum⟩ := hps
    have hinv0 := @loopInv_init l pre.base.lha_level pre.p
      (leNum pre.base.compressed_size) (leNum pre.base.original_size)
      pre.base.msdos_attrs hrd hlen hcrc
    obtain ⟨hinvF, _, _, _⟩ := extraLoop_ok pre.base.lha_level pre.long_header_len l
      (leNum pre.base.compressed_size) (leNum pre.base.original_size)
      _ _ _ _ _ _ hloop hinv0
    obtain ⟨_, _, _, _, _, hcount, _, _⟩ := hinvF
    subst hg
    simp only
    split at hcount <;> omega
  next heq => simp at h

set_option maxRecDepth 100000 in
theorem c4_witness : readC4Count inputLevel1Common = some 1 ∧ 1 ≤ 1 :=
  ⟨by decide, c4_common_at_most_once inputLevel1Common 1 (by decide)⟩

/-- Claim C5: for every level 0 or 1 header accepted by `LhaHeader::read`,
the 8-bit wrapping sum of the input bytes at positions `2` up to
`header_length + 2` (exclusive) equals the byte at position 1; bytes 0 and
1 themselves are not part of the sum (the sum ranges over positions from 2
only), and a mismatch makes `read` fail with "invalid header level
checksum" (the contrapositive of this acceptance condition). -/
theorem c5_level01_checksum (l : List Nat) (lev : Nat)
    (h : readLevel l = some lev) (hlev : lev < 2) :
    ((l.take (l.getD 0 0 + 2)).drop 2).sum % 256 = l.getD 1 0 := by
  unfold readLevel at h
  split at h
  next hdr pfin g heq =>
    simp only [Option.some.injEq] at h
    subst h
    obtain ⟨pre, p1, st, cs', hpre, hloop, hvl, hvc, hadj, hhdr, hg⟩ := readAux_ok heq
    obtain ⟨hps, hh0, hhne, hc1, hbase, hlev3, hlt2, _⟩ := readPre_ok hpre
    have hlevel : hdr.level = pre.base.lha_level := by rw [hhdr]
    rw [hlevel] at hlev
    obtain ⟨hplen, hlng0, hcsum⟩ := hlt2 hlev
    rw [← hh0, ← hplen, ← hc1, hcsum]
  next heq => simp at h

set_option maxRecDepth 100000 in
theorem c5_witness :
    readLevel inputLevel0 = some 0 ∧ (0 : Nat) < 2 ∧
      ((inputLevel0.take (inputLevel0.getD 0 0 + 2)).drop 2).sum % 256 =
        inputLevel0.getD 1 0 :=
  ⟨by decide, by decide, c5_level01_checksum inputLevel0 0 (by decide) (by decide)⟩

/-- Claim C6: for every level 1 header accepted by `LhaHeader::read`, the
byte length of the retained extra-header buffer never exceeds the
compressed size from the base header (otherwise `read` would fail with
"wrong length of skip size"), and the `compressed_size` of the returned
record is the base value (the 32-bit little-endian field at input offsets
7..11) decremented by that buffer length. -/
theorem c6_level1_skip_adjust (l : List Nat) (cs el : Nat)
    (h : readC6Info l = some (1, cs, el)) :
    el ≤ leNum ((l.drop 7).take 4) ∧ cs = leNum ((l.drop 7).take 4) - el := by
  unfold readC6Info at h
  split at h
  next hdr pfin g heq =>
    simp only [Option.some.injEq, Prod.mk.injEq] at h
    obtain ⟨hl1, hcs, hel⟩ := h
    obtain ⟨pre, p1, st, cs', hpre, hloop, hvl, hvc, hadj, hhdr, hg⟩ := readAux_ok heq
    obtain ⟨hps, hh0, hhne, hc1, hbase, hlev3, hlt2, _⟩ := readPre_ok hpre
    obtain ⟨hrd, hlen, hcrc, h2len, hcsum⟩ := hps
    have hlevel : hdr.level = pre.base.lha_level := by rw [hhdr]
    have hlev1 : pre.base.lha_level = 1 := by rw [← hlevel, hl1]
    have hinv0 := @loopInv_init l pre.base.lha_level pre.p
      (leNum pre.base.compressed_size) (leNum pre.base.original_size)
      pre.base.msdos_attrs hrd hlen hcrc
    obtain ⟨hinvF, _, _, _⟩ := extraLoop_ok pre.base.lha_level pre.long_header_len l
      (leNum pre.base.compressed_size) (leNum pre.base.original_size)
      _ _ _ _ _ _ hloop hinv0
    obtain ⟨_, _, _, _, _, _, _, hsizes⟩ := hinvF
    rw [hlev1, foldl_sizeStep_lt_two (by omega)] at hsizes
    have hstcs : st.compressed_size = leNum pre.base.compressed_size :=
      (Prod.mk.injEq _ _ _ _ ▸ hsizes).1
    obtain ⟨hadj1, _⟩ := adjustCompressed_ok hadj
    obtain ⟨hle, hcs'⟩ := hadj1 hlev1
    have hcomp : pre.base.compressed_size = (l.drop 7).take 4 := by
      rw [hbase]
      show (((l.drop 2).take 19).drop 5).take 4 = (l.drop 7).take 4
      rw [List.drop_take, List.drop_drop, List.take_take]
      norm_num
    have hel2 : el = st.extra_headers.length := by
      rw [← hel, hhdr]
    have hcs2 : cs = cs' := by rw [← hcs, hhdr]
    rw [hel2, hcs2, ← hcomp, ← hstcs]
    exact ⟨hle, hcs'⟩
  next heq => simp at h

set_option maxRecDepth 100000 in
theorem c6_witness :
    readC6Info inputLevel1Extra = some (1, 0, 3) ∧
      3 ≤ leNum ((inputLevel1Extra.drop 7).take 4) ∧
      0 = leNum ((inputLevel1Extra.drop 7).take 4) - 3 :=
  ⟨by decide, c6_level1_skip_adjust inputLevel1Extra 0 3 (by decide)⟩

/-- Claim C3: for every header accepted by `LhaHeader::read` that contains
a Common extra header (id `0x00`) at input position `cp`, the CRC-16
computed over the digested image of all consumed bytes — the consumed
prefix, prolog bytes included, with the two bytes of the Common record's
CRC-16 field (positions `cp+1` and `cp+2`) replaced by zeros — equals the
16-bit LE value stored at offsets 1..3 of that Common record; a mismatch
makes `read` fail with "wrong header CRC-16 checksum" (this theorem is the
acceptance side of that check). -/
theorem c3_header_crc16 (l : List Nat) (cp n : Nat)
    (h : readC3Info l = some (some cp, n)) :
    crc16 (zero2At (l.take n) (cp + 1)) = leNum ((l.drop (cp + 1)).take 2) := by
  unfold readC3Info at h
  split at h
  next hdr pfin g heq =>
    simp only [Option.some.injEq, Prod.mk.injEq] at h
    obtain ⟨hcp, hn⟩ := h
    obtain ⟨pre, p1, st, cs', hpre, hloop, hvl, hvc, hadj, hhdr, hg⟩ := readAux_ok heq
    obtain ⟨hps, _⟩ := readPre_ok hpre
    obtain ⟨hrd, hlen, hcrc, h2len, hcsum⟩ := hps
    have hinv0 := @loopInv_init l pre.base.lha_level pre.p
      (leNum pre.base.compressed_size) (leNum pre.base.original_size)
      pre.base.msdos_attrs hrd hlen hcrc
    obtain ⟨hinvF, _, _, _⟩ := extraLoop_ok pre.base.lha_level pre.long_header_len l
      (leNum pre.base.compressed_size) (leNum pre.base.original_size)
      _ _ _ _ _ _ hloop hinv0
    obtain ⟨hrd1, hlen1, hcrc1, hiff, hcpfact, hcount, _, _⟩ := hinvF
    have hstcp : st.commonPos = some cp := by
      rw [hg] at hcp; exact hcp
    obtain ⟨hcp3, hcrcval⟩ := hcpfact cp hstcp
    obtain ⟨hvlA, hvlB, hvlC, hvlD⟩ := validateLong_ok hrd1 hlen1 hvl
    have hfin : pfin.crcData = zero2At (l.take pfin.len) (cp + 1) := by
      rcases hvlC with hsame | ⟨ha, hb, hc, hd⟩
      · rw [hsame, hcrc1, hstcp]
        rfl
      · rw [hb, hcrc1, hstcp, ha]
        simp only [maskCrc]
        rw [List.take_add, zero2At_append_left
          (by simp only [List.length_take]; omega)]
    have hcval := validateCrc_ok hvc (leNum ((l.drop (cp + 1)).take 2)) hcrcval
    rw [← hn, ← hfin, ← hcval]
  next heq => simp at h

set_option maxRecDepth 100000 in
theorem c3_witness :
    readC3Info inputLevel1Common = some (some 27, 30) ∧
      crc16 (zero2At (inputLevel1Common.take 30) 28) =
        leNum ((inputLevel1Common.drop 28).take 2) :=
  ⟨by decide, c3_header_crc16 inputLevel1Common 27 30 (by decide)⟩

theorem sizeStep_isSize_true {level : Nat} {ac : Nat × Nat} {r : List Nat}
    (h : isSizeRec level r = true) :
    sizeStep level ac r = (leNum ((r.drop 1).take 8), leNum ((r.drop 9).take 8)) := by
  cases r with
  | nil => simp [isSizeRec] at h
  | cons b data =>
    simp only [isSizeRec, Bool.and_eq_true, decide_eq_true_eq] at h
    obtain ⟨⟨hb, h2⟩, h16⟩ := h
    subst hb
    rw [sizeStep_cons_pos h2 h16]
    simp

theorem sizeStep_isSize_false {level : Nat} {ac : Nat × Nat} {r : List Nat}
    (h : isSizeRec level r = false) : sizeStep level ac r = ac := by
  cases r with
  | nil => rfl
  | cons b data =>
    refine sizeStep_cons_neg fun hc => ?_
    have : isSizeRec level (b :: data) = true := by
      simp [isSizeRec, hc.1, hc.2.1, hc.2.2]
    rw [this] at h
    exact Bool.noConfusion h

theorem getLast?_cons_eq {α : Type} (a : α) (L : List α) :
    (a :: L).getLast? = (match L.getLast? with | some x => some x | none => some a) := by
  cases L with
  | nil => rfl
  | cons b t =>
    rw [List.getLast?_cons_cons]
    cases hq : (b :: t).getLast? with
    | some x => rfl
    | none =>
      exfalso
      rw [List.getLast?_eq_none_iff] at hq
      exact List.noConfusion hq

/-- The walk's size fold is determined by the last honoured MS-DOS Size
record, if any. -/
theorem foldl_sizeStep_eq (level : Nat) :
    ∀ (rs : List (List Nat)) (init : Nat × Nat),
    rs.foldl (sizeStep level) init =
      (match (rs.filter (fun r => isSizeRec level r)).getLast? with
       | some r => (leNum ((r.drop 1).take 8), leNum ((r.drop 9).take 8))
       | none => init) := by
  intro rs
  induction rs with
  | nil => intro init; rfl
  | cons r rs ih =>
    intro init
    rw [List.foldl_cons, ih]
    by_cases hr : isSizeRec level r = true
    · rw [List.filter_cons_of_pos hr, getLast?_cons_eq]
      cases hq : (rs.filter (fun x => isSizeRec level x)).getLast? with
      | some r2 => rfl
      | none =>
        simp only
        rw [List.getLast?_eq_none_iff] at hq
        rw [hq] at ih
        rw [show (sizeStep level init r) = _ from sizeStep_isSize_true hr]
    · rw [List.filter_cons_of_neg (by simp [hr]),
        sizeStep_isSize_false (by simp at hr ⊢; exact hr)]
  -- end

/-- Claim C7: for every accepted header of level ≥ 2, the returned sizes
are those of the last MS-DOS Size extra record (id `0x42`, at least 16
payload bytes) when one is present in the accepted chain, and otherwise the
32-bit little-endian values of the base header (input offsets 7..11 and
11..15) widened to 64 bits. -/
theorem c7_msdos_size (l : List Nat) (lev cs os : Nat) (recs : List (List Nat))
    (h : readC7Info l = some (lev, cs, os, recs)) (hlev : 2 ≤ lev) :
    (match (recs.filter (fun r => isSizeRec lev r)).getLast? with
     | some r => cs = leNum ((r.drop 1).take 8) ∧ os = leNum ((r.drop 9).take 8)
     | none => cs = leNum ((l.drop 7).take 4) ∧ os = leNum ((l.drop 11).take 4)) := by
  unfold readC7Info at h
  split at h
  next hdr pfin g heq =>
    simp only [Option.some.injEq, Prod.mk.injEq] at h
    obtain ⟨hl2, hcs, hos, hrecs⟩ := h
    obtain ⟨pre, p1, st, cs', hpre, hloop, hvl, hvc, hadj, hhdr, hg⟩ := readAux_ok heq
    obtain ⟨hps, hh0, hhne, hc1, hbase, hlev3, hlt2, _⟩ := readPre_ok hpre
    obtain ⟨hrd, hlen, hcrc, h2len, hcsum⟩ := hps
    have hlevel : pre.base.lha_level = lev := by
      rw [← hl2, hhdr]
    have hinv0 := @loopInv_init l pre.base.lha_level pre.p
      (leNum pre.base.compressed_size) (leNum pre.base.original_size)
      pre.base.msdos_attrs hrd hlen hcrc
    obtain ⟨hinvF, _, _, _⟩ := extraLoop_ok pre.base.lha_level pre.long_header_len l
      (leNum pre.base.compressed_size) (leNum pre.base.original_size)
      _ _ _ _ _ _ hloop hinv0
    obtain ⟨_, _, _, _, _, _, _, hsizes⟩ := hinvF
    obtain ⟨_, hadjne⟩ := adjustCompressed_ok hadj
    have hcs' : cs' = st.compressed_size := hadjne (by omega)
    have hcsv : cs = st.compressed_size := by
      rw [← hcs, hhdr]; exact hcs'
    have hosv : os = st.original_size := by
      rw [← hos, hhdr]
    have hrecv : recs = st.records := by
      rw [← hrecs, hg]
    have hcompr : pre.base.compressed_size = (l.drop 7).take 4 := by
      rw [hbase]
      show (((l.drop 2).take 19).drop 5).take 4 = (l.drop 7).take 4
      rw [List.drop_take, List.drop_drop, List.take_take]
      norm_num
    have horig : pre.base.original_size = (l.drop 11).take 4 := by
      rw [hbase]
      show (((l.drop 2).take 19).drop 9).take 4 = (l.drop 11).take 4
      rw [List.drop_take, List.drop_drop, List.take_take]
      norm_num
    rw [foldl_sizeStep_eq] at hsizes
    rw [hlevel] at hsizes
    rw [hcsv, hosv, hrecv]
    cases hq : (st.records.filter (fun r => isSizeRec lev r)).getLast? with
    | some r =>
      rw [hq] at hsizes
      simp only at hsizes
      exact ⟨(Prod.mk.injEq _ _ _ _ ▸ hsizes).1, (Prod.mk.injEq _ _ _ _ ▸ hsizes).2⟩
    | none =>
      rw [hq] at hsizes
      simp only at hsizes
      rw [← hcompr, ← horig]
      exact ⟨(Prod.mk.injEq _ _ _ _ ▸ hsizes).1, (Prod.mk.injEq _ _ _ _ ▸ hsizes).2⟩
  next heq => simp at h

set_option maxRecDepth 100000 in
theorem c7_witness :
    readC7Info inputMsdosSize =
      some (2, 7, 9, [[66, 7, 0, 0, 0, 0, 0, 0, 0, 9, 0, 0, 0, 0, 0, 0, 0, 0, 0]]) ∧
    (match ([[66, 7, 0, 0, 0, 0, 0, 0, 0, 9, 0, 0, 0, 0, 0, 0, 0, 0, 0]].filter
        (fun r => isSizeRec 2 r)).getLast? with
     | some r => 7 = leNum ((r.drop 1).take 8) ∧ 9 = leNum ((r.drop 9).take 8)
     | none => 7 = leNum ((inputMsdosSize.drop 7).take 4) ∧
         9 = leNum ((inputMsdosSize.drop 11).take 4)) :=
  ⟨by decide, c7_msdos_size inputMsdosSize 2 7 9 _ (by decide) (by omega)⟩

theorem leNum_pair (a b : Nat) : leNum [a, b] = a + 256 * b := by
  simp [leNum]

theorem extraLoop_big_cur {level lng : Nat} {fuel cur : Nat} {p : Parser}
    {st : ExtraState} {p1 : Parser} {st' : ExtraState}
    (hcur0 : cur ≠ 0) (hbig : p.rd.length < cur)
    (h : extraLoop level lng fuel cur p st = .ok (p1, st')) : False := by
  cases fuel with
  | zero => simp [extraLoop] at h
  | succ fuel =>
    rw [extraLoop] at h
    rw [if_neg hcur0] at h
    split at h
    · simp at h
    next hmin =>
      split at h
      · simp at h
      next =>
        split at h
        · simp at h
        next =>
          split at h
          next e heq => simp at h
          next raw p2 heq =>
            obtain ⟨_, _, _, _, hle⟩ := read_limit_no_checksums_ok heq
            omega

/-- Claim C1 (refuting evaluation): the level-3 input below is accepted by
`readAux` although its consumed byte count (32) differs from its announced
long header length (33) — the "wrong length of headers" rejection that the
spec prescribes for level 3 never fires, because both conditions of the
post-walk validation are guarded by `lha_level == 2`. -/
theorem c1_level3_mismatch_accepted :
    readC1Info inputLevel3Mismatch = some (3, 32, 33) ∧ (32 : Nat) ≠ 33 :=
  ⟨by decide, by decide⟩

/-- Claim C2 counterexample: the "Osk"-convention level-2 input below is
accepted with 32 bytes consumed while announcing a long header length of
30; 32 is none of `long`, `long + 1`, `long - 2` (30, 31, 28) that the
claim enumerates.  (The padding case ends at exactly `long` consumed bytes,
and the Osk case at `long + 2`.) -/
theorem c2_counterexample :
    readC2Info inputOsk = some (2, 32, 30, 6) ∧
      ¬ ((32 : Nat) = 30 ∨ (32 : Nat) = 30 + 1 ∨ (32 : Nat) = 30 - 2) :=
  ⟨by decide, by decide⟩

/-- Claim C2 (amended): for every input on which `LhaHeader::read`
succeeds, the total number of bytes consumed from the reader equals
`header_length + 2` for level 0; `header_length + 2` plus the total length
of the retained extra records for level 1; for level 2, either exactly
`long_header_length` (which includes the one-byte-padding case, where the
padding byte is consumed to reach the announced length) or
`long_header_length + 2` (the Osk quirk, where the producer's count
excludes the 2-byte prolog); for level 3 the count is only bounded by
`long_header_length + 2`, because the code's level-3 length equality check
is ineffective (see C1). -/
theorem extraLoop_zero (level lng fuel : Nat) (p : Parser) (st : ExtraState) :
    extraLoop level lng (fuel + 1) 0 p st = .ok (p, st) := by
  rw [extraLoop]
  simp

theorem getD_byte_lt {l : List Nat} (hb : ∀ b ∈ l, b < 256) {i : Nat}
    (h : i < l.length) (d : Nat) : l.getD i d < 256 := by
  rw [List.getD_eq_getElem l d h]
  exact hb _ (List.getElem_mem h)

theorem c2_consumed_bytes (l : List Nat) (lev n lng el : Nat)
    (hb : ∀ b ∈ l, b < 256) (hl : l.length + 28 < M32)
    (h : readC2Info l = some (lev, n, lng, el)) :
    (lev = 0 → n = l.getD 0 0 + 2) ∧
    (lev = 1 → n = l.getD 0 0 + 2 + el) ∧
    (lev = 2 → n = lng ∨ n = lng + 2) ∧
    (lev = 3 → n ≤ lng + 2) := by
  have hM : M32 = 4294967296 := rfl
  unfold readC2Info at h
  split at h
  next hdr pfin g heq =>
    simp only [Option.some.injEq, Prod.mk.injEq] at h
    obtain ⟨hlev, hn, hlng, hel⟩ := h
    obtain ⟨pre, p1, st, cs', hpre, hloop, hvl, hvc, hadj, hhdr, hg⟩ := readAux_ok heq
    obtain ⟨hps, hh0, hhne, hc1, hbase, hlev3, hlt2, hf0, hge2, hl2f, hl3f⟩ :=
      readPre_ok hpre
    obtain ⟨hrd, hlenp, hcrc, h2len, hcsum⟩ := hps
    have hlevv : pre.base.lha_level = lev := by rw [← hlev, hhdr]
    have hlngv : pre.long_header_len = lng := by rw [← hlng, hg]
    have helv : st.extra_headers.length = el := by rw [← hel, hhdr]
    have hinv0 := @loopInv_init l pre.base.lha_level pre.p
      (leNum pre.base.compressed_size) (leNum pre.base.original_size)
      pre.base.msdos_attrs hrd hlenp hcrc
    obtain ⟨hinvF, hlenF, hlngF, _⟩ := extraLoop_ok pre.base.lha_level
      pre.long_header_len l (leNum pre.base.compressed_size)
      (leNum pre.base.original_size) _ _ _ _ _ _ hloop hinv0
    obtain ⟨hrd1, hlen1, _, _, _, _, _, _⟩ := hinvF
    simp only [List.length_nil] at hlenF
    obtain ⟨hvA, hvB, hvC, hvD⟩ := validateLong_ok hrd1 hlen1 hvl
    refine ⟨?_, ?_, ?_, ?_⟩
    · -- level 0
      intro h0
      rw [← hlevv] at h0
      have hfz : pre.first_header_len = 0 := hf0 h0
      have hlngz : pre.long_header_len = 0 := (hlt2 (by omega)).2.1
      have hplen : pre.p.len = pre.header_len + 2 := (hlt2 (by omega)).1
      rw [hfz, extraLoop_zero] at hloop
      have hpfin : pfin = p1 := hvB hlngz
      have hq1 : pfin.len = p1.len := by rw [hpfin]
      have hq2 : p1.len = pre.p.len := by
        simp only [Except.ok.injEq, Prod.mk.injEq] at hloop
        rw [← hloop.1]
      rw [hh0] at hplen
      omega
    · -- level 1
      intro h1
      rw [← hlevv] at h1
      have hlngz : pre.long_header_len = 0 := (hlt2 (by omega)).2.1
      have hpfin : pfin = p1 := hvB hlngz
      have hq1 : pfin.len = p1.len := by rw [hpfin]
      have hplen : pre.p.len = pre.header_len + 2 := (hlt2 (by omega)).1
      rw [hh0] at hplen
      omega
    · -- level 2
      intro h2
      rw [← hlevv] at h2
      obtain ⟨hlngeq, hplen26⟩ := hl2f h2
      have hlngne : pre.long_header_len ≠ 0 := by
        rw [hlngeq, leNum_pair]
        intro hz
        exact hhne (by omega)
      have hhb : pre.header_len < 256 := by
        rw [hh0]
        exact getD_byte_lt hb (by omega) 0
      have hcb : pre.csum_byte < 256 := by
        rw [hc1]
        exact getD_byte_lt hb (by omega) 0
      have hlngbound : pre.long_header_len + 2 < M32 := by
        rw [hlngeq, leNum_pair]
        omega
      have hp1m : p1.len % M32 = p1.len := Nat.mod_eq_of_lt (by omega)
      rcases hvD hlngne h2 with ⟨he, hpp⟩ | ⟨he, hplen1⟩ | ⟨he, hpp⟩
      · left
        have hq : pfin.len = p1.len := by rw [hpp]
        rw [hp1m] at he
        omega
      · left
        rw [hp1m] at he
        have hmod : (p1.len + 1) % M32 = p1.len + 1 := Nat.mod_eq_of_lt (by omega)
        rw [hmod] at he
        omega
      · right
        have hq : pfin.len = p1.len := by rw [hpp]
        have hmod : (pre.long_header_len + 2) % M32 = pre.long_header_len + 2 :=
          Nat.mod_eq_of_lt hlngbound
        rw [hp1m, hmod] at he
        omega
    · -- level 3
      intro h3
      rw [← hlevv] at h3
      have hplen32 : pre.p.len = 32 := hl3f h3
      have hpfin : pfin = p1 := hvA (by omega)
      have hq : pfin.len = p1.len := by rw [hpfin]
      have hG : ¬ pre.long_header_len <
          (pre.p.len % M32 + pre.first_header_len) % M32 := hge2 (by omega)
      rw [hplen32] at hG
      have h32m : (32 : Nat) % M32 = 32 := Nat.mod_eq_of_lt (by omega)
      rw [h32m] at hG
      have hrdlen : pre.p.rd.length = l.length - 32 := by
        rw [hrd, hplen32]
        simp
      by_cases hbigf : 32 + pre.first_header_len < M32
      · -- the modulus is the identity, so lng is at least 32 + first
        rw [Nat.mod_eq_of_lt hbigf] at hG
        rcases hvC with hpp | ⟨hplen1, _, _, _⟩
        · have hq2 : pfin.len = p1.len := by rw [hpp]
          rcases hlngF (by omega) with hsame | hbound
          · omega
          · omega
        · -- the padding read is impossible here: pfin = p1 forces equal lengths
          rw [hpfin] at hplen1
          omega
      · -- the first-extra length is absurdly large: the walk must have failed
        exfalso
        have hfne : pre.first_header_len ≠ 0 := by omega
        exact extraLoop_big_cur hfne (by omega) hloop
  next heq => simp at h

set_option maxRecDepth 100000 in
theorem c2_witness :
    readC2Info inputOsk = some (2, 32, 30, 6) ∧
      (∀ b ∈ inputOsk, b < 256) ∧ inputOsk.length + 28 < M32 ∧
      ((2 : Nat) = 2 → (32 : Nat) = 30 ∨ (32 : Nat) = 30 + 2) :=
  ⟨by decide, by decide, by decide,
    (c2_consumed_bytes inputOsk 2 32 30 6 (by decide) (by decide) (by decide)).2.2.1⟩

/-! ### Error analysis: the skip-size error branch is unreachable -/

theorem read_exact_error {p : Parser} {n : Nat} {e : String}
    (h : read_exact p n = .error e) : e = "truncated" := by
  unfold read_exact at h
  split at h
  · simp at h
  · simp only [Except.error.injEq] at h
    exact h.symm

theorem read_u8_error {p : Parser} {e : String} (h : read_u8 p = .error e) :
    e = "truncated" := by
  unfold read_u8 at h
  split at h
  next => simp at h
  next e2 heq =>
    simp only [Except.error.injEq] at h
    rw [← h]
    exact read_exact_error heq

theorem read_u16_error {p : Parser} {e : String} (h : read_u16 p = .error e) :
    e = "truncated" := by
  unfold read_u16 at h
  split at h
  next => simp at h
  next e2 heq =>
    simp only [Except.error.injEq] at h
    rw [← h]
    exact read_exact_error heq

theorem read_u32_error {p : Parser} {e : String} (h : read_u32 p = .error e) :
    e = "truncated" := by
  unfold read_u32 at h
  split at h
  next => simp at h
  next e2 heq =>
    simp only [Except.error.injEq] at h
    rw [← h]
    exact read_exact_error heq

theorem read_limit_error {p : Parser} {n : Nat} {e : String}
    (h : read_limit p n = .error e) : e = "file is too short" := by
  unfold read_limit at h
  split at h
  · simp at h
  · simp only [Except.error.injEq] at h
    exact h.symm

theorem read_limit_no_checksums_error {p : Parser} {n : Nat} {e : String}
    (h : read_limit_no_checksums p n = .error e) : e = "file is too short" := by
  unfold read_limit_no_checksums at h
  split at h
  · simp at h
  · simp only [Except.error.injEq] at h
    exact h.symm

theorem readFilename_no_skip {level hl : Nat} {p : Parser} {e : String}
    (h : readFilename level hl p = .error e) : e ≠ "wrong length of skip size" := by
  unfold readFilename at h
  split at h
  next =>
    split at h
    next e2 heq =>
      simp only [Except.error.injEq] at h
      rw [← h, read_u8_error heq]
      decide
    next fnLen p1 heq =>
      split at h
      · simp only [Except.error.injEq] at h
        rw [← h]
        decide
      next =>
        rw [read_limit_error h]
        decide
  next => simp at h

theorem readExtOs_no_skip {level hl ost min_len : Nat} {p : Parser} {e : String}
    (h : readExtOs level hl ost min_len p = .error e) :
    e ≠ "wrong length of skip size" := by
  unfold readExtOs at h
  split at h
  next =>
    split at h
    next e2 heq =>
      simp only [Except.error.injEq] at h
      rw [← h, read_u8_error heq]
      decide
    next => simp at h
  next => simp at h

theorem readExtended_no_skip {level hl ost min_len : Nat} {p : Parser} {e : String}
    (h : readExtended level hl ost min_len p = .error e) :
    e ≠ "wrong length of skip size" := by
  unfold readExtended at h
  split at h
  next =>
    split at h
    · simp only [Except.error.injEq] at h
      rw [← h]
      decide
    next =>
      split at h
      next e2 heq =>
        simp only [Except.error.injEq] at h
        rw [← h]
        exact readExtOs_no_skip heq
      next elen o p1 heq =>
        split at h
        next =>
          split at h
          next e2 heq2 =>
            simp only [Except.error.injEq] at h
            rw [← h, read_limit_error heq2]
            decide
          next => simp at h
        next => simp at h
  next => simp at h

theorem readLens_no_skip {level hl c : Nat} {p : Parser} {e : String}
    (h : readLens level hl c p = .error e) : e ≠ "wrong length of skip size" := by
  unfold readLens at h
  split at h
  next =>
    split at h
    next e2 heq =>
      simp only [Except.error.injEq] at h
      rw [← h, read_u16_error heq]
      decide
    next => simp at h
  next =>
    split at h
    next =>
      split at h
      next e2 heq =>
        simp only [Except.error.injEq] at h
        rw [← h, read_u16_error heq]
        decide
      next => simp at h
    next =>
      split at h
      next =>
        split at h
        next e2 heq =>
          simp only [Except.error.injEq] at h
          rw [← h, read_u32_error heq]
          decide
        next lo p1 heq =>
          split at h
          next e2 heq2 =>
            simp only [Except.error.injEq] at h
            rw [← h, read_u32_error heq2]
            decide
          next f p2 heq2 =>
            split at h
            · simp only [Except.error.injEq] at h
              rw [← h]
              decide
            · simp at h
      next => simp at h

theorem validatePre_no_skip {level c lng fst : Nat} {p : Parser} {e : String}
    (h : validatePre level c lng fst p = .error e) : e ≠ "wrong length of skip size" := by
  unfold validatePre at h
  split at h
  next =>
    split at h
    · simp only [Except.error.injEq] at h
      rw [← h]
      decide
    · simp at h
  next =>
    split at h
    · simp only [Except.error.injEq] at h
      rw [← h]
      decide
    · simp at h

theorem readPre_no_skip {l : List Nat} {e : String}
    (h : readPre l = .error e) : e ≠ "wrong length of skip size" := by
  unfold readPre at h
  split at h
  next => simp at h
  next h0 p1 heq =>
    split at h
    · simp at h
    next =>
      split at h
      next e2 heq2 =>
        simp only [Except.error.injEq] at h
        rw [← h, read_u8_error heq2]
        decide
      next c p2 heq2 =>
        split at h
        next e2 heq3 =>
          simp only [Except.error.injEq] at h
          rw [← h, read_exact_error heq3]
          decide
        next bb p3 heq3 =>
          split at h
          · simp only [Except.error.injEq] at h
            rw [← h]
            decide
          next =>
            split at h
            next e2 heq4 =>
              simp only [Except.error.injEq] at h
              rw [← h]
              exact readFilename_no_skip heq4
            next fn p4 heq4 =>
              split at h
              next e2 heq5 =>
                simp only [Except.error.injEq] at h
                rw [← h, read_u16_error heq5]
                decide
              next fcrc p5 heq5 =>
                split at h
                next e2 heq6 =>
                  have he2 : e2 = "truncated" := by
                    split at heq6
                    next => exact read_u8_error heq6
                    next => simp at heq6
                  simp only [Except.error.injEq] at h
                  rw [← h, he2]
                  decide
                next ost0 p6 heq6 =>
                  split at h
                  next e2 heq7 =>
                    simp only [Except.error.injEq] at h
                    rw [← h]
                    exact readExtended_no_skip heq7
                  next ost ea p7 heq7 =>
                    split at h
                    next e2 heq8 =>
                      simp only [Except.error.injEq] at h
                      rw [← h]
                      exact readLens_no_skip heq8
                    next lng fst p8 heq8 =>
                      split at h
                      next e2 heq9 =>
                        simp only [Except.error.injEq] at h
                        rw [← h]
                        exact validatePre_no_skip heq9
                      next => simp at h

theorem processRecord_no_skip {level : Nat} {st : ExtraState} {pos : Nat}
    {raw : List Nat} {e : String} (h : processRecord level st pos raw = .error e) :
    e ≠ "wrong length of skip size" := by
  cases raw with
  | nil => simp [processRecord] at h
  | cons b data =>
    simp only [processRecord] at h
    split at h
    next =>
      split at h
      · simp only [Except.error.injEq] at h
        rw [← h]
        decide
      next =>
        split at h
        · simp at h
        · simp at h
    next =>
      split at h
      · simp at h
      next =>
        split at h
        · simp at h
        · simp at h

theorem extraLoop_no_skip {level lng : Nat} :
    ∀ (fuel cur : Nat) (p : Parser) (st : ExtraState) (e : String),
    extraLoop level lng fuel cur p st = .error e → e ≠ "wrong length of skip size" := by
  intro fuel
  induction fuel with
  | zero =>
    intro cur p st e h
    simp only [extraLoop, Except.error.injEq] at h
    rw [← h]
    decide
  | succ fuel ih =>
    intro cur p st e h
    rw [extraLoop] at h
    split at h
    · simp at h
    next =>
      split at h
      · simp only [Except.error.injEq] at h
        rw [← h]
        decide
      next =>
        split at h
        · simp only [Except.error.injEq] at h
          rw [← h]
          decide
        next =>
          split at h
          · simp only [Except.error.injEq] at h
            rw [← h]
            decide
          next =>
            split at h
            next e2 heq =>
              simp only [Except.error.injEq] at h
              rw [← h, read_limit_no_checksums_error heq]
              decide
            next raw p1 heq =>
              split at h
              next e2 heq2 =>
                simp only [Except.error.injEq] at h
                rw [← h]
                exact processRecord_no_skip heq2
              next edited st1 heq2 =>
                exact ih _ _ _ _ h

theorem validateLong_no_skip {level lng : Nat} {p : Parser} {e : String}
    (h : validateLong level lng p = .error e) : e ≠ "wrong length of skip size" := by
  unfold validateLong at h
  split at h
  next =>
    split at h
    next =>
      split at h
      next =>
        split at h
        next e2 heq =>
          simp only [Except.error.injEq] at h
          rw [← h, read_u8_error heq]
          decide
        next => simp at h
      next =>
        split at h
        · simp only [Except.error.injEq] at h
          rw [← h]
          decide
        · simp at h
    next => simp at h
  next => simp at h

theorem validateCrc_no_skip {hcrc : Option Nat} {p : Parser} {e : String}
    (h : validateCrc hcrc p = .error e) : e ≠ "wrong length of skip size" := by
  unfold validateCrc at h
  split at h
  next =>
    split at h
    · simp only [Except.error.injEq] at h
      rw [← h]
      decide
    · simp at h
  next => simp at h

theorem adjustCompressed_error {level el cs : Nat} {e : String}
    (h : adjustCompressed level el cs = .error e) :
    level = 1 ∧ cs < el := by
  unfold adjustCompressed at h
  split at h
  next hl1 =>
    split at h
    next hlt => exact ⟨hl1, hlt⟩
    next => simp at h
  next => simp at h

/-- Claim C10: the "wrong length of skip size" error branch of
`LhaHeader::read` is unreachable: for level-1 headers the extra-header
walker checks, before reading each record, that the compressed size covers
the bytes retained so far plus the current record, so the retained buffer
can never exceed the compressed size (which no extra header can alter at
level 1), and no other stage produces this error. -/
theorem c10_skip_size_unreachable (l : List Nat) :
    readAux l ≠ .error "wrong length of skip size" := by
  intro h
  unfold readAux at h
  split at h
  next e heq =>
    simp only [Except.error.injEq] at h
    exact readPre_no_skip heq h
  next heq => simp at h
  next pre heq =>
    split at h
    next e heq2 =>
      simp only [Except.error.injEq] at h
      exact extraLoop_no_skip _ _ _ _ _ heq2 h
    next p1 st heq2 =>
      split at h
      next e heq3 =>
        simp only [Except.error.injEq] at h
        exact validateLong_no_skip heq3 h
      next pf heq3 =>
        split at h
        next e heq4 =>
          simp only [Except.error.injEq] at h
          exact validateCrc_no_skip heq4 h
        next u heq4 =>
          split at h
          next e heq5 =>
            -- only the skip-size adjustment can produce this error; show it cannot
            obtain ⟨hlev1, hlt⟩ := adjustCompressed_error heq5
            obtain ⟨hps, hh0, hhne, hc1, hbase, hlev3, hlt2, _⟩ := readPre_ok heq
            obtain ⟨hrd, hlenp, hcrc, h2len, hcsum⟩ := hps
            have hlngz : pre.long_header_len = 0 := (hlt2 (by omega)).2.1
            have hinv0 := @loopInv_init l pre.base.lha_level pre.p
              (leNum pre.base.compressed_size) (leNum pre.base.original_size)
              pre.base.msdos_attrs hrd hlenp hcrc
            obtain ⟨_, _, _, hskipF⟩ := extraLoop_ok pre.base.lha_level
              pre.long_header_len l (leNum pre.base.compressed_size)
              (leNum pre.base.original_size) _ _ _ _ _ _ heq2 hinv0
            have hbound := hskipF ⟨hlngz, by omega⟩ (by simp)
            omega
          next => simp at h

/-! ### The string sanitizer -/

theorem parse_str_eq_sanitizeRec (sep : Nat → Bool) (nil ign : Bool) :
    ∀ s : List Nat, parse_str_nilterm sep s nil ign = sanitizeRec sep nil ign s := by
  intro s
  induction s with
  | nil => rfl
  | cons b rest ih =>
    unfold parse_str_nilterm
    rw [List.findIdx?_cons]
    by_cases hb : badByte sep ign b = true
    · rw [if_pos hb]
      simp only [sanitizeRec, if_pos hb]
      simp
    · rw [if_neg hb]
      simp only [sanitizeRec, if_neg hb]
      rw [List.findIdx?_succ]
      cases hf : List.findIdx? (badByte sep ign) rest with
      | none =>
        have h2 := ih
        unfold parse_str_nilterm at h2
        rw [hf] at h2
        simp [← h2]
      | some i =>
        have h2 := ih
        unfold parse_str_nilterm at h2
        rw [hf] at h2
        simp only [Option.map_some']
        simp [List.take_succ_cons, List.drop_succ_cons, ← h2]

theorem utf8Len_append (a b : List Nat) : utf8Len (a ++ b) = utf8Len a + utf8Len b := by
  simp [utf8Len]

theorem hexDigitCode_lt {x : Nat} (h : x < 16) : hexDigitCode x < 128 := by
  unfold hexDigitCode
  split <;> omega

theorem utf8Len_escapeByte (b : Nat) : utf8Len (escapeByte b) = 3 := by
  have h1 : hexDigitCode (b % 256 / 16) < 128 := hexDigitCode_lt (by omega)
  have h2 : hexDigitCode (b % 16) < 128 := hexDigitCode_lt (by omega)
  simp [utf8Len, escapeByte, h1, h2]

theorem utf8Len_sanitizeTail (sep : Nat → Bool) (ign : Bool) :
    ∀ s : List Nat, utf8Len (sanitizeTail sep true ign s) ≤ 3 * s.length := by
  intro s
  induction s with
  | nil => simp [sanitizeTail, utf8Len]
  | cons b rest ih =>
    simp only [sanitizeTail]
    split
    · simp [utf8Len]
    · split
      next h1 =>
        rw [utf8Len_append, utf8Len_escapeByte]
        simp only [List.length_cons]
        omega
      next h1 =>
        split
        next h2 =>
          simp only [utf8Len, List.map_cons, List.sum_cons] at ih ⊢
          norm_num
          omega
        next h2 =>
          have hb : b < 128 := by omega
          simp only [utf8Len, List.map_cons, List.sum_cons, if_pos hb] at ih ⊢
          simp only [List.length_cons]
          omega

theorem utf8Len_sanitizeRec (sep : Nat → Bool) (ign : Bool) :
    ∀ s : List Nat, utf8Len (sanitizeRec sep true ign s) ≤ 3 * s.length := by
  intro s
  induction s with
  | nil => simp [sanitizeRec, utf8Len]
  | cons b rest ih =>
    simp only [sanitizeRec]
    split
    next hb => exact utf8Len_sanitizeTail sep ign (b :: rest)
    next hb =>
      have hgood : ¬ (b < 32 ∨ 127 ≤ b) := by
        intro hc
        apply hb
        unfold badByte
        rcases hc with hc | hc <;> simp [hc]
      have hlt : b < 128 := by omega
      simp only [utf8Len, List.map_cons, List.sum_cons, if_pos hlt] at ih ⊢
      simp only [List.length_cons]
      omega

theorem sanitizeTail_nil_takeWhile (sep : Nat → Bool) (ign : Bool) :
    ∀ s : List Nat, sanitizeTail sep true ign s
      = sanitizeTail sep true ign (s.takeWhile (fun c => !decide (c = 0))) := by
  intro s
  induction s with
  | nil => rfl
  | cons b rest ih =>
    rw [List.takeWhile_cons]
    by_cases hb : b = 0
    · subst hb
      simp [sanitizeTail]
    · have hpred : (!decide (b = 0)) = true := by simp [hb]
      rw [if_pos hpred]
      simp only [sanitizeTail]
      have hc : ¬ (True ∧ b = 0) := by simp [hb]
      rw [if_neg hc, if_neg hc]
      by_cases h1 : b < 32 ∨ 127 ≤ b
      · rw [if_pos h1, if_pos h1, ih]
      · rw [if_neg h1, if_neg h1]
        by_cases h2 : (!ign && sep b) = true
        · rw [if_pos h2, if_pos h2, ih]
        · rw [if_neg h2, if_neg h2, ih]

theorem sanitizeRec_takeWhile (sep : Nat → Bool) (ign : Bool) :
    ∀ s : List Nat, sanitizeRec sep true ign s
      = sanitizeRec sep true ign (s.takeWhile (fun c => !decide (c = 0))) := by
  intro s
  induction s with
  | nil => rfl
  | cons b rest ih =>
    rw [List.takeWhile_cons]
    by_cases hb : b = 0
    · subst hb
      simp [sanitizeRec, badByte, sanitizeTail]
    · have hpred : (!decide (b = 0)) = true := by simp [hb]
      rw [if_pos hpred]
      by_cases hbad : badByte sep ign b = true
      · simp only [sanitizeRec, if_pos hbad]
        rw [sanitizeTail_nil_takeWhile sep ign (b :: rest), List.takeWhile_cons,
          if_pos hpred]
      · simp only [sanitizeRec, if_neg hbad]
        rw [ih]

/-- Claim C9 counterexample: `[0xff, 0x00]` has its first NUL at index 1,
yet the nil-terminating sanitizer yields the three-byte string `"%ff"`, so
the output byte length exceeds the index of the first NUL. -/
theorem c9_counterexample :
    (0 ∈ ([255, 0] : List Nat)) ∧
    ([255, 0] : List Nat).findIdx (fun c => decide (c = 0)) = 1 ∧
    utf8Len (parse_str_nilterm sepUnix [255, 0] true false) = 3 ∧
    1 < utf8Len (parse_str_nilterm sepUnix [255, 0] true false) := by
  decide

/-- Claim C9 (corrected): for a byte string containing a NUL, the
nil-terminating sanitizer consumes only the source bytes before the first
NUL — its output equals the output on the NUL-free prefix — and its UTF-8
byte length is at most 3 bytes per consumed source byte (a `%xx` escape
expands one source byte to three output bytes, so the output length can
exceed the index of the first NUL). -/
theorem c9_nilterm_source_prefix (sep : Nat → Bool) (ign : Bool) (s : List Nat)
    (h : 0 ∈ s) :
    parse_str_nilterm sep s true ign
      = parse_str_nilterm sep (s.takeWhile (fun c => !decide (c = 0))) true ign ∧
    utf8Len (parse_str_nilterm sep s true ign)
      ≤ 3 * (s.takeWhile (fun c => !decide (c = 0))).length := by
  rw [parse_str_eq_sanitizeRec, parse_str_eq_sanitizeRec]
  rw [← sanitizeRec_takeWhile]
  refine ⟨rfl, ?_⟩
  rw [sanitizeRec_takeWhile]
  exact utf8Len_sanitizeRec sep ign _

theorem c9_witness :
    (0 ∈ ([97, 0, 98] : List Nat)) ∧
    (parse_str_nilterm sepUnix [97, 0, 98] true false
       = parse_str_nilterm sepUnix (([97, 0, 98] : List Nat).takeWhile
           (fun c => !decide (c = 0))) true false ∧
     utf8Len (parse_str_nilterm sepUnix [97, 0, 98] true false)
       ≤ 3 * (([97, 0, 98] : List Nat).takeWhile (fun c => !decide (c = 0))).length) :=
  ⟨by decide, c9_nilterm_source_prefix sepUnix false [97, 0, 98] (by decide)⟩

/-! ### The pathname parser -/

theorem sanitizeTail_false_flatten (sep : Nat → Bool) (ign : Bool) :
    ∀ s : List Nat, sanitizeTail sep false ign s = (s.map (chunkByte sep ign)).flatten := by
  intro s
  induction s with
  | nil => rfl
  | cons b rest ih =>
    simp only [sanitizeTail, List.map_cons, List.flatten_cons]
    have hc : ¬ (false = true ∧ b = 0) := by simp
    rw [if_neg hc]
    by_cases h1 : b < 32 ∨ 127 ≤ b
    · have hcb : chunkByte sep ign b = escapeByte b := by
        unfold chunkByte
        rw [if_pos h1]
      rw [if_pos h1, hcb, ih]
    · by_cases h2 : (!ign && sep b) = true
      · have hcb : chunkByte sep ign b = [95] := by
          unfold chunkByte
          rw [if_neg h1, if_pos h2]
        rw [if_neg h1, if_pos h2, hcb, ih]
        rfl
      · have hcb : chunkByte sep ign b = [b] := by
          unfold chunkByte
          rw [if_neg h1, if_neg h2]
        rw [if_neg h1, if_neg h2, hcb, ih]
        rfl

theorem sanitizeRec_false_flatten (sep : Nat → Bool) (ign : Bool) :
    ∀ s : List Nat, sanitizeRec sep false ign s = (s.map (chunkByte sep ign)).flatten := by
  intro s
  induction s with
  | nil => rfl
  | cons b rest ih =>
    simp only [sanitizeRec]
    by_cases hbad : badByte sep ign b = true
    · rw [if_pos hbad]
      exact sanitizeTail_false_flatten sep ign (b :: rest)
    · rw [if_neg hbad]
      simp only [List.map_cons, List.flatten_cons]
      simp only [badByte, Bool.or_eq_true, decide_eq_true_eq] at hbad
      push_neg at hbad
      have hgood : chunkByte sep ign b = [b] := by
        unfold chunkByte
        rw [if_neg (by omega), if_neg hbad.2]
      rw [hgood, ih]
      rfl

theorem chunkByte_length (sep : Nat → Bool) (ign : Bool) (b : Nat) :
    (chunkByte sep ign b).length = 1 ∨ (chunkByte sep ign b).length = 3 := by
  unfold chunkByte
  split
  · right
    simp [escapeByte]
  · split
    · left
      rfl
    · left
      rfl

theorem flatten_chunks_length (sep : Nat → Bool) (ign : Bool) :
    ∀ part : List Nat, part.length ≤ ((part.map (chunkByte sep ign)).flatten).length := by
  intro part
  induction part with
  | nil => simp
  | cons b t ih =>
    simp only [List.map_cons, List.flatten_cons, List.length_append, List.length_cons]
    have h1 : 1 ≤ (chunkByte sep ign b).length := by
      rcases chunkByte_length sep ign b with h | h <;> omega
    omega

theorem hexDigitCode_ne {x : Nat} (h : x < 16) :
    hexDigitCode x ≠ 47 ∧ hexDigitCode x ≠ 92 := by
  unfold hexDigitCode
  split <;> omega

theorem chunkByte_mem_sep_false (sep : Nat → Bool)
    (hsep : ∀ c, sep c = true → c = 47 ∨ c = 92) (b : Nat) :
    ∀ ch ∈ chunkByte sep false b, sep ch = false := by
  intro ch hch
  cases hsc : sep ch with
  | false => rfl
  | true =>
    exfalso
    have h47 := hsep ch hsc
    unfold chunkByte at hch
    split at hch
    next =>
      simp only [escapeByte, List.mem_cons, List.not_mem_nil, or_false] at hch
      rcases hch with rfl | rfl | rfl
      · rcases h47 with h | h <;> omega
      · have hne := hexDigitCode_ne (x := b % 256 / 16) (by omega)
        rcases h47 with h | h
        · exact hne.1 h
        · exact hne.2 h
      · have hne := hexDigitCode_ne (x := b % 16) (by omega)
        rcases h47 with h | h
        · exact hne.1 h
        · exact hne.2 h
    next =>
      split at hch
      next =>
        simp only [List.mem_cons, List.not_mem_nil, or_false] at hch
        subst hch
        rcases h47 with h | h <;> omega
      next h3 =>
        simp only [List.mem_cons, List.not_mem_nil, or_false] at hch
        subst hch
        simp only [Bool.not_false, Bool.true_and] at h3
        exact h3 hsc

theorem sanitized_part_safe (sep : Nat → Bool)
    (hsep : ∀ c, sep c = true → c = 47 ∨ c = 92)
    (part : List Nat) (h0 : part ≠ []) (h1 : part ≠ [46]) (h2 : part ≠ [46, 46]) :
    parse_str_nilterm sep part false false ≠ [] ∧
    parse_str_nilterm sep part false false ≠ [46] ∧
    parse_str_nilterm sep part false false ≠ [46, 46] ∧
    (parse_str_nilterm sep part false false).all (fun ch => !sep ch) = true := by
  rw [parse_str_eq_sanitizeRec, sanitizeRec_false_flatten]
  refine ⟨?_, ?_, ?_, ?_⟩
  · intro hF
    have hle := flatten_chunks_length sep false part
    rw [hF] at hle
    simp only [List.length_nil, Nat.le_zero] at hle
    exact h0 (List.length_eq_zero.mp hle)
  · cases part with
    | nil => exact absurd rfl h0
    | cons b t =>
      cases t with
      | nil =>
        simp only [List.map_cons, List.map_nil, List.flatten_cons, List.flatten_nil,
          List.append_nil]
        intro hF
        have hb46 : b = 46 := by
          unfold chunkByte at hF
          split at hF
          · simp [escapeByte] at hF
          · split at hF
            · simp at hF
            · simpa using hF
        exact h1 (by rw [hb46])
      | cons c t2 =>
        intro hF
        have hle := flatten_chunks_length sep false (b :: c :: t2)
        rw [hF] at hle
        simp at hle
  · cases part with
    | nil => exact absurd rfl h0
    | cons b t =>
      cases t with
      | nil =>
        simp only [List.map_cons, List.map_nil, List.flatten_cons, List.flatten_nil,
          List.append_nil]
        intro hF
        rcases chunkByte_length sep false b with hl | hl <;> rw [hF] at hl <;> simp at hl
      | cons c t2 =>
        cases t2 with
        | nil =>
          simp only [List.map_cons, List.map_nil, List.flatten_cons, List.flatten_nil,
            List.append_nil]
          intro hF
          unfold chunkByte at hF
          split at hF
          · simp [escapeByte] at hF
          · split at hF
            · simp at hF
            · split at hF
              · simp [escapeByte] at hF
              · split at hF
                · simp at hF
                · simp only [List.singleton_append, List.cons.injEq, and_true] at hF
                  exact h2 (by rw [hF.1, hF.2])
        | cons d t3 =>
          intro hF
          have hle := flatten_chunks_length sep false (b :: c :: d :: t3)
          rw [hF] at hle
          simp at hle
  · rw [List.all_eq_true]
    intro ch hch
    rw [List.mem_flatten] at hch
    obtain ⟨L, hL, hchL⟩ := hch
    rw [List.mem_map] at hL
    obtain ⟨b, hb, rfl⟩ := hL
    have hf := chunkByte_mem_sep_false sep hsep b ch hchL
    simp [hf]

theorem foldl_pathStep_mem (sep : Nat → Bool) :
    ∀ (parts : List (List Nat)) (path : List (List Nat)) (comp : List Nat),
    comp ∈ parts.foldl
      (fun path part =>
        if part = [46] ∨ part = [46, 46] ∨ part = [] then path
        else path ++ [parse_str_nilterm sep part false false]) path →
    comp ∈ path ∨ ∃ part, part ∈ parts ∧ ¬ (part = [46] ∨ part = [46, 46] ∨ part = []) ∧
      comp = parse_str_nilterm sep part false false := by
  intro parts
  induction parts with
  | nil =>
    intro path comp h
    exact .inl (by simpa using h)
  | cons part rest ih =>
    intro path comp h
    simp only [List.foldl_cons] at h
    by_cases hcase : part = [46] ∨ part = [46, 46] ∨ part = []
    · rw [if_pos hcase] at h
      rcases ih _ _ h with h1 | ⟨q, hq1, hq2, hq3⟩
      · exact .inl h1
      · exact .inr ⟨q, List.mem_cons_of_mem _ hq1, hq2, hq3⟩
    · rw [if_neg hcase] at h
      rcases ih _ _ h with h1 | ⟨q, hq1, hq2, hq3⟩
      · rcases List.mem_append.1 h1 with h2 | h2
        · exact .inl h2
        · exact .inr ⟨part, List.mem_cons_self _ _, hcase, by simpa using h2⟩
      · exact .inr ⟨q, List.mem_cons_of_mem _ hq1, hq2, hq3⟩

/-- Claim C8: starting from an empty accumulator, every component that
`parse_pathname` pushes is non-empty, is neither `.` nor `..`, and — for a
platform whose separator characters are among `/` and `\` — contains no
separator character; hence each push appends one relative component and
the resulting path is always relative. -/
theorem c8_components_safe (sep : Nat → Bool) (data : List Nat)
    (hsep : ∀ c, sep c = true → c = 47 ∨ c = 92) :
    ∀ comp ∈ parse_pathname sep data [],
      comp ≠ [] ∧ comp ≠ [46] ∧ comp ≠ [46, 46] ∧
      comp.all (fun ch => !sep ch) = true := by
  intro comp hc
  unfold parse_pathname at hc
  rcases foldl_pathStep_mem sep (splitBySep data) [] comp hc with h1 | ⟨part, _, hp2, hp3⟩
  · simp at h1
  · simp only [not_or] at hp2
    subst hp3
    exact sanitized_part_safe sep hsep part hp2.2.2 hp2.1 hp2.2.1

set_option maxRecDepth 100000 in
theorem c8_witness :
    ([97] : List Nat) ≠ [] ∧ ([97] : List Nat) ≠ [46] ∧ ([97] : List Nat) ≠ [46, 46] ∧
    ([97] : List Nat).all (fun ch => !sepUnix ch) = true :=
  c8_components_safe sepUnix [47, 46, 46, 47, 97, 255, 98]
    (fun c hc => Or.inl (of_decide_eq_true hc)) [97] (by decide)

end Delharc
